import Mathlib

/-!
Verification development for the signal-analysis core of the `wafo` Python
library (`src/wafo/misc.py`): level-crossing detection, extrema and
turning-point extraction, the rainflow filter, rainflow cycle counting, and
the Markov-to-rainflow matrix conversion.

Signals are modelled as `List ℚ` (the code operates on floating-point
arrays; rational arithmetic models real arithmetic exactly).  Indices are
modelled as `ℕ` and out-of-range accesses use `List.getD` with default `0`,
mirroring the fact that the Python code never indexes out of range on the
paths modelled here (places where the Python code would raise an
`IndexError`, e.g. `findrfc` on a sequence of fewer than two points, are
noted at the definition).  Functions that can raise `ValueError` are
modelled with `Except String`; the function `findtp`, which can return the
Python sentinel `None`, returns an `Option`.
-/

namespace Wafo

/-- Decidable equality for `Except`, used to state concrete facts about
functions that can raise. -/
instance {ε α : Type} [DecidableEq ε] [DecidableEq α] : DecidableEq (Except ε α)
  | .ok a, .ok b => decidable_of_iff (a = b) (by simp)
  | .error e, .error f => decidable_of_iff (e = f) (by simp)
  | .ok _, .error _ => isFalse (by simp)
  | .error _, .ok _ => isFalse (by simp)

/-- `numpy.sign` on a rational, as the integer `-1`, `0` or `1`.
Mirrors `sign(x - v)` in `findcross` (misc.py line 693). -/
def signq (a : ℚ) : ℤ := if a < 0 then -1 else if 0 < a then 1 else 0

/-- `numpy.diff`: the list of consecutive differences `x[i+1] - x[i]`. -/
def diffq (x : List ℚ) : List ℚ := List.zipWith (fun a b => a - b) x.tail x

/-- Write the value `v` at every position `0 .. ix` of `l`.
Mirrors the slice assignment `xn[0:ix + 1] = -xn[ix + 1]`
(misc.py line 632). -/
def setRange (l : List ℤ) (ix : ℕ) (v : ℤ) : List ℤ :=
  (List.range (ix + 1)).foldl (fun m p => m.set p v) l

/-- The indices `i` with `s[i] * s[i+1] < 0`, in increasing order.
Mirrors `(xn[:n - 1] * xn[1:] < 0).nonzero()` (misc.py line 639). -/
def crossIdx (s : List ℤ) : List ℕ :=
  (List.range (s.length - 1)).filter (fun i => decide (s.getD i 0 * s.getD (i + 1) 0 < 0))

/-- The plateau-folding mutation of the sign vector performed in place by
`_findcross` (misc.py lines 616-636): a leading run of zeros is overwritten
with minus the sign following the run, and every other zero is overwritten
with the (already folded) sign before it. -/
def zeroFold (xn : List ℤ) : List ℤ :=
  let iz := (List.range xn.length).filter (fun i => decide (xn.getD i 0 = 0))
  if iz = [] then xn
  else if iz.headD 0 = 0 then
    let diz := List.zipWith (fun (a b : ℕ) => (a : ℤ) - (b : ℤ)) iz.tail iz
    let ix := if diz.any (fun d => decide (1 < d)) then
                iz.getD (diz.findIdx (fun d => decide (1 < d))) 0
              else iz.getLastD 0
    (iz.drop (ix + 1)).foldl (fun l p => l.set p (l.getD (p - 1) 0))
      (setRange xn ix (-(xn.getD (ix + 1) 0)))
  else iz.foldl (fun l p => l.set p (l.getD (p - 1) 0)) xn

/-- `_findcross` (misc.py lines 608-640) on a sign vector: indices of the
sign changes of the plateau-folded vector; a vector that is zero everywhere
returns no crossings (and the code emits the advisory
`All values are equal to crossing level!`). -/
def findcrossSigns (xn : List ℤ) : List ℕ :=
  if xn ≠ [] ∧ xn.all (fun a => a == 0) then [] else crossIdx (zeroFold xn)

/-- All level-`v` crossing indices of `x`: `_findcross(sign(x - v))`. -/
def findcrossList (x : List ℚ) (v : ℚ) : List ℕ :=
  findcrossSigns (x.map (fun xi => signq (xi - v)))

/-- Fires exactly when `findcross` (or `_findcross`) issues an advisory
warning: both `warnings.warn` call sites (misc.py lines 621 and 696) fire
precisely when the returned crossing list is empty. -/
def findcrossWarn (x : List ℚ) (v : ℚ) : Bool := (findcrossList x v).isEmpty

/-- `l[::2]`: every second element of `l`, starting with the first. -/
def everyOther : List ℕ → List ℕ
  | [] => []
  | [a] => [a]
  | a :: _ :: rest => a :: everyOther rest

/-- The selector strings accepted by `findcross` (misc.py lines 699-726);
any other value reaches the `raise ValueError` at line 726. -/
def validKinds : List (Option String) :=
  [none, some "du", some "all", some "d", some "u",
   some "dw", some "uw", some "tw", some "cw"]

/-- `findcross` (misc.py lines 643-727).  Computes the crossing indices of
the sign vector, returns them unfiltered when they are empty (with an
advisory) or when `kind` is `None`/`'du'`/`'all'`, otherwise filters them
according to `kind`; an unrecognised `kind` raises `ValueError`.  The
dispatch reads the sign vector *after* the in-place plateau folding done by
`_findcross`, hence the uses of `zeroFold` below. -/
def findcross (x : List ℚ) (v : ℚ) (kind : Option String) : Except String (List ℕ) :=
  let xn := x.map (fun xi => signq (xi - v))
  let ind := findcrossSigns xn
  if ind = [] then .ok ind
  else if kind = none ∨ kind = some "du" ∨ kind = some "all" then .ok ind
  else
    let xf := zeroFold xn
    if kind = some "d" then
      let t0 : ℕ := if 0 < xf.getD (ind.headD 0 + 1) 0 then 1 else 0
      .ok (everyOther (ind.drop t0))
    else if kind = some "u" then
      let t0 : ℕ := if xf.getD (ind.headD 0 + 1) 0 < 0 then 1 else 0
      .ok (everyOther (ind.drop t0))
    else if kind = some "dw" ∨ kind = some "uw" ∨ kind = some "tw" ∨ kind = some "cw" then
      let firstDown : Bool := decide (xf.getD (ind.headD 0 + 1) 0 < xf.getD (ind.headD 0) 0)
      let isDT : Bool := decide (kind = some "dw" ∨ kind = some "tw")
      let ind1 := if firstDown != isDT then ind.drop 1 else ind
      let isOdd : Bool := decide (ind1.length % 2 = 1)
      let isDU : Bool := decide (kind = some "dw" ∨ kind = some "uw")
      .ok (if isOdd != isDU then ind1.dropLast else ind1)
    else .error "Unknown wave/crossing definition!"

/-- `findextrema` (misc.py lines 730-759): crossing indices of the first
difference at level `0`, shifted by one. -/
def findextrema (x : List ℚ) : List ℕ :=
  (findcrossList (diffq x) 0).map (· + 1)

/-! ## findrfc (misc.py lines 877-1006), pure-Python branch -/

/-- The backward scan of the rainflow counter (misc.py lines 955-961):
starting from `j = i - 1` (the first argument is `i`, one above the first
index examined) and while `y[2j+1] ≤ y[2i+1]`, lower the candidate trough
`(xminus, Tmi)` whenever `y[2j] < xminus`. -/
def backScan (y : List ℚ) (yi1 : ℚ) (Tstart : ℕ) : ℕ → ℚ × ℕ → ℚ × ℕ
  | 0, st => st
  | j + 1, st =>
      if y.getD (2 * j + 1) 0 ≤ yi1 then
        backScan y yi1 Tstart j
          (if y.getD (2 * j) 0 < st.1 then (y.getD (2 * j) 0, Tstart + 2 * j) else st)
      else st

/-- The forward scan of the rainflow counter (misc.py lines 970-977):
from `j` upward while `j < NC` (the fuel argument is `NC - j`), stop with
`some` at the first `j` with `y[2j+1] ≥ y[2i+1]` (the `break` to label
L170), lowering the candidate crest `(xplus, Tpl)` on the way; return
`none` when the loop runs off the end (Python's `while`-`else`). -/
def fwdScan (y : List ℚ) (yi1 : ℚ) (Tstart : ℕ) : ℕ → ℕ → ℚ × ℕ → Option (ℚ × ℕ)
  | 0, _, _ => none
  | fuel + 1, j, st =>
      if yi1 ≤ y.getD (2 * j + 1) 0 then some st
      else fwdScan y yi1 Tstart fuel (j + 1)
        (if y.getD (2 * j + 2) 0 ≤ st.1 then (y.getD (2 * j + 2) 0, Tstart + 2 * j + 2) else st)

/-- One iteration of the main rainflow loop (misc.py lines 949-999): the
pair of turning-point indices (0, 1 or 2 output indices) contributed by
minimum `i`. -/
def rfcStep (y : List ℚ) (h : ℚ) (Tstart NC : ℕ) (i : ℕ) : List (ℕ × ℕ) :=
  let yi1 := y.getD (2 * i + 1) 0
  let st0 : ℚ × ℕ := (y.getD (2 * i) 0, Tstart + 2 * i)
  let stm := if i ≠ 0 then backScan y yi1 Tstart i st0 else st0
  let xplus0 := y.getD (2 * i + 2) 0
  if xplus0 ≤ stm.1 then
    if h ≤ yi1 - stm.1 then [(stm.2, Tstart + 2 * i + 1)] else []
  else
    match fwdScan y yi1 Tstart (NC - (i + 1)) (i + 1) (xplus0, Tstart + 2 * i + 2) with
    | none => if h ≤ yi1 - stm.1 then [(stm.2, Tstart + 2 * i + 1)] else []
    | some stp =>
        if stp.1 ≤ stm.1 then
          if h ≤ yi1 - stm.1 then [(stm.2, Tstart + 2 * i + 1)] else []
        else if h ≤ yi1 - stp.1 then [(Tstart + 2 * i + 1, stp.2)] else []

/-- The working sequence, start offset and iteration count of `findrfc`
(misc.py lines 925-933): a leading maximum is dropped and compensated by
`Tstart = 1`. -/
def findrfcData (tp : List ℚ) : List ℚ × ℕ × ℕ :=
  let n := tp.length
  if tp.getD 1 0 < tp.getD 0 0 then (tp.drop 1, 1, (n - 1) / 2 - 1)
  else (tp, 0, n / 2 - 1)

/-- The list of index pairs accumulated by the `findrfc` loop, in loop
order; the Python code stores the two components of each pair
consecutively in the flat array `ind`.  `NC < 1` and the two
not-a-turning-point-sequence advisories (misc.py lines 935-944) yield no
cycles.  (On a sequence of fewer than two points the Python code raises
`IndexError`; that case is modelled as no cycles.) -/
def findrfcPairs (tp : List ℚ) (h : ℚ) : List (ℕ × ℕ) :=
  let d := findrfcData tp
  let y := d.1
  let Tstart := d.2.1
  let NC := d.2.2
  if NC = 0 then []
  else if y.getD 1 0 < y.getD 0 0 ∧ y.getD 2 0 < y.getD 1 0 then []
  else if y.getD 0 0 < y.getD 1 0 ∧ y.getD 1 0 < y.getD 2 0 then []
  else (List.range NC).flatMap (rfcStep y h Tstart NC)

/-- Insert `a` into an already sorted list (ascending). -/
def insSorted (a : ℕ) : List ℕ → List ℕ
  | [] => [a]
  | b :: l => if a ≤ b then a :: b :: l else b :: insSorted a l

/-- Ascending insertion sort; models `np.sort` (misc.py line 1006). -/
def sortAsc (l : List ℕ) : List ℕ := l.foldr insSorted []

/-- `findrfc(tp, h)` with the pure-Python method: the flattened, sorted
index pairs. -/
def findrfc (tp : List ℚ) (h : ℚ) : List ℕ :=
  sortAsc ((findrfcPairs tp h).flatMap (fun p => [p.1, p.2]))

/-! ## rfcfilter (misc.py lines 1151-1270) -/

/-- First comparator of `rfcfilter`: `<=` for `method == 0`, `<`
otherwise (misc.py lines 1215-1220; note that any method other than `0`
selects the second pair, there is no validation). -/
def cmp1 (m : ℤ) (a b : ℚ) : Bool := if m = 0 then a ≤ b else a < b

/-- Second comparator of `rfcfilter`: `<` for `method == 0`, `<=`
otherwise. -/
def cmp2 (m : ℤ) (a b : ℚ) : Bool := if m = 0 then a < b else a ≤ b

/-- The condition under which `rfcfilter` sets `z1 = -1` when a direction
`z0 ≠ 0` is established (misc.py lines 1238-1239). -/
def rfCondDown (m : ℤ) (z0 : ℤ) (y0 yi h : ℚ) : Bool :=
  (decide (z0 = 1) && cmp1 m yi (y0 - h)) || (decide (z0 = -1) && cmp2 m yi (y0 + h))

/-- The condition under which `rfcfilter` sets `z1 = +1` when a direction
`z0 ≠ 0` is established (misc.py lines 1241-1242). -/
def rfCondUp (m : ℤ) (z0 : ℤ) (y0 yi h : ℚ) : Bool :=
  (decide (z0 = 1) && cmp2 m (y0 - h) yi) || (decide (z0 = -1) && cmp1 m (y0 + h) yi)

/-- The loop state of `rfcfilter`: last retained index `t0` and value
`y0`, direction flag `z0`, the prefix `t[0..j]` of emitted indices (`t[0]`
is always `0`), and whether the `Something wrong` warning fired. -/
structure RfState where
  t0 : ℕ
  y0 : ℚ
  z0 : ℤ
  ts : List ℕ
  warned : Bool
deriving Repr, DecidableEq

/-- One iteration of the `rfcfilter` loop body (misc.py lines 1223-1263)
for sample index `ti`.  In the unreachable `Something wrong` branch the
Python variable `z1` keeps its value from the previous iteration, which is
exactly the current `z0`; the model records the warning and proceeds the
same way. -/
def rfStep (m : ℤ) (h : ℚ) (x : List ℚ) (s : RfState) (ti : ℕ) : RfState :=
  let yi := x.getD ti 0
  if s.z0 = 0 then
    let z1 : ℤ := if cmp1 m yi (s.y0 - h) then -1 else if cmp1 m (s.y0 + h) yi then 1 else 0
    let t1 := if z1 = 0 then s.t0 else ti
    let y1 := if z1 = 0 then s.y0 else yi
    let ts1 := if (s.z0 - z1).natAbs = 2 then s.ts ++ [s.t0] else s.ts
    ⟨t1, y1, z1, ts1, s.warned⟩
  else
    let c1 := rfCondDown m s.z0 s.y0 yi h
    let c2 := rfCondUp m s.z0 s.y0 yi h
    let z1 : ℤ := if c1 then -1 else if c2 then 1 else s.z0
    let w1 : Bool := if c1 then s.warned else if c2 then s.warned else true
    let p :=
      if z1 ≠ s.z0 then (ti, yi)
      else if z1 = -1 then (if s.y0 < yi then (s.t0, s.y0) else (ti, yi))
      else (if yi < s.y0 then (s.t0, s.y0) else (ti, yi))
    let ts1 := if (s.z0 - z1).natAbs = 2 then s.ts ++ [s.t0] else s.ts
    ⟨p.1, p.2, z1, ts1, w1⟩

/-- The `rfcfilter` loop run over sample indices `1 .. i`. -/
def rfRun (m : ℤ) (h : ℚ) (x : List ℚ) (i : ℕ) : RfState :=
  (List.range' 1 i).foldl (rfStep m h x) ⟨0, x.getD 0 0, 0, [0], false⟩

/-- The retained indices `t[:j+1]` of `rfcfilter` including the final
tail test (misc.py lines 1266-1269). -/
def rfcfilterT (x : List ℚ) (h : ℚ) (m : ℤ) : List ℕ :=
  let s := rfRun m h x (x.length - 1)
  if cmp1 m h |s.y0 - x.getD (s.ts.getLastD 0) 0| then s.ts ++ [s.t0] else s.ts

/-- `rfcfilter(x, h, method)` (misc.py lines 1151-1270): the retained
sample values `y[t[:j+1]]`. -/
def rfcfilter (x : List ℚ) (h : ℚ) (m : ℤ) : List ℚ :=
  (rfcfilterT x h m).map (fun i => x.getD i 0)

/-- Whether the `Something wrong` warning (misc.py line 1245) fired during
the `rfcfilter` loop. -/
def rfcfilterWarned (x : List ℚ) (h : ℚ) (m : ℤ) : Bool :=
  (rfRun m h x (x.length - 1)).warned

/-! ## findtp (misc.py lines 1273-1374) -/

/-- `findtp(x, h, kind)` (misc.py lines 1273-1374).  Returns `none` for
the Python `None` (fewer than two extrema).  For `h < 0` it returns
`range(n)` immediately. -/
def findtp (x : List ℚ) (h : ℚ) (kind : Option String) : Option (List ℕ) :=
  let n := x.length
  if h < 0 then some (List.range n)
  else
    let ind := findextrema x
    if ind.length < 2 then none
    else
      let ind1 :=
        if kind = some "astm" then
          if x.getD (ind.headD 0) 0 ≠ x.getD 0 0 then 0 :: (ind ++ [n - 1]) else ind ++ [n - 1]
        else
          if x.getD (ind.getD 1 0) 0 < x.getD (ind.headD 0) 0 then 0 :: (ind ++ [n - 1])
          else ind ++ [n - 1]
      let ind2 :=
        if 0 < h then (findrfc (ind1.map (fun i => x.getD i 0)) h).map (fun j => ind1.getD j 0)
        else ind1
      if kind = some "mw" ∨ kind = some "Mw" then
        let firstIsMax : Bool := decide (x.getD (ind2.getD 1 0) 0 < x.getD (ind2.headD 0) 0)
        let ind3 := if firstIsMax != decide (kind = some "Mw") then ind2.drop 1 else ind2
        some (if ind3.length % 2 ≠ 1 then ind3.dropLast else ind3)
      else some ind2

/-! ## mctp2rfc (misc.py lines 1009-1148)

Matrices are lists of row lists of rationals; the function is written for a
square `N x N` matrix, `N ≥ 2` (for `N < 2` the Python code indexes with
the negative index `N - 2`, which is not modelled). -/

/-- A matrix as a list of rows. -/
abbrev Mat := List (List ℚ)

/-- Entry `(i, j)` of a matrix (`0` outside). -/
def mget (m : Mat) (i j : ℕ) : ℚ := (m.getD i []).getD j 0

/-- Set entry `(i, j)` of a matrix. -/
def mset (m : Mat) (i j : ℕ) (v : ℚ) : Mat := m.set i ((m.getD i []).set j v)

/-- The `nr x nc` zero matrix. -/
def zeroMat (nr nc : ℕ) : Mat := List.replicate nr (List.replicate nc 0)

/-- Sub-block `m[r0:r0+nr, c0:c0+nc]`. -/
def subMat (m : Mat) (r0 nr c0 nc : ℕ) : Mat :=
  ((m.drop r0).take nr).map (fun row => (row.drop c0).take nc)

/-- Sum of all entries of a matrix. -/
def matSum (m : Mat) : ℚ := (m.map (fun r => r.sum)).sum

/-- The row sums of a matrix (`np.sum(..., axis=1)`). -/
def rowSums (m : Mat) : List ℚ := m.map (fun r => r.sum)

/-- The column sums of an `N`-column matrix (`np.sum(..., axis=0)`). -/
def colSums (m : Mat) (N : ℕ) : List ℚ :=
  (List.range N).map (fun j => (m.map (fun r => r.getD j 0)).sum)

/-- Sum of column `j` of a matrix. -/
def colSumAt (m : Mat) (j : ℕ) : ℚ := (m.map (fun r => r.getD j 0)).sum

/-- `np.rot90`: rotate an `n x n` matrix counterclockwise,
`(rot90 m)[i][j] = m[j][n-1-i]`. -/
def rot90 (m : Mat) (n : ℕ) : Mat :=
  (List.range n).map (fun i => (List.range n).map (fun j => mget m j (n - 1 - i)))

/-- `n x n` identity matrix. -/
def idMat (n : ℕ) : Mat :=
  (List.range n).map (fun i => (List.range n).map (fun j => if i = j then (1 : ℚ) else 0))

/-- Matrix product of two `n x n` matrices. -/
def matMul (a b : Mat) (n : ℕ) : Mat :=
  (List.range n).map (fun i => (List.range n).map (fun j =>
    ((List.range n).map (fun t => mget a i t * mget b t j)).sum))

/-- Entrywise difference of two matrices of equal shape. -/
def matSub (a b : Mat) : Mat := List.zipWith (List.zipWith (fun x y => x - y)) a b

/-- Matrix-vector product of an `n x n` matrix with a vector. -/
def matVec (a : Mat) (v : List ℚ) (n : ℕ) : List ℚ :=
  (List.range n).map (fun i => ((List.range n).map (fun t => mget a i t * v.getD t 0)).sum)

/-- Dot product. -/
def dotq (a b : List ℚ) : ℚ := (List.zipWith (fun x y => x * y) a b).sum

/-- `max(abs(v))` over a vector. -/
def maxAbs (v : List ℚ) : ℚ := (v.map (fun a => |a|)).foldl max 0

/-- One elimination step of Gaussian elimination: subtract the multiple of
the pivot row that clears the leading entry of `row`, and drop that
leading entry. -/
def elimRow (pivot row : List ℚ) : List ℚ :=
  (List.zipWith (fun a b => a - row.headD 0 / pivot.headD 0 * b) row pivot).tail

/-- Move a row with a non-zero leading entry to the front, if any. -/
def pickPivot : List (List ℚ) → Option (List ℚ × List (List ℚ))
  | [] => none
  | r :: rs =>
      if r.headD 0 ≠ 0 then some (r, rs)
      else match pickPivot rs with
           | some (p, rest) => some (p, r :: rest)
           | none => none

/-- Row-echelon reduction of an augmented system (each row a coefficient
row with the right-hand side appended); `fuel` is the number of rows. -/
def gaussEchelon : ℕ → List (List ℚ) → List (List ℚ)
  | 0, _ => []
  | fuel + 1, rows =>
      match pickPivot rows with
      | none => []
      | some (p, rest) => p :: gaussEchelon fuel (rest.map (elimRow p))

/-- Back substitution on echelon rows produced by `gaussEchelon`. -/
def backSub : List (List ℚ) → List ℚ
  | [] => []
  | p :: rest =>
      let xs := backSub rest
      let b := p.getLastD 0
      let coeffs := (p.drop 1).dropLast
      (b - dotq coeffs xs) / p.headD 0 :: xs

/-- Modelled from `numpy.linalg.solve` as called at misc.py line 1110:
exact Gaussian elimination over `ℚ`.  On a singular system `numpy` raises
`LinAlgError` (the code comments call it a least-squares solve, but
`linalg.solve` is what is called); the model then returns a junk value,
which no theorem below relies on. -/
def linsolve (a : Mat) (b : List ℚ) : List ℚ :=
  backSub (gaussEchelon a.length (List.zipWith (fun row bi => row ++ [bi]) a b))

/-- The tolerance `1e-6` of `mctp2rfc`. -/
def mcTol : ℚ := 1 / 1000000

/-- The body of the inner `(k, i)` loop of `mctp2rfc` (misc.py lines
1063-1119): fill cell `(N-1-k, k-i)` of the rainflow matrix. -/
def mctpCell (fmM fMm : Mat) (fmax fmin : List ℚ) (N k : ℕ) (frfc : Mat) (i : ℕ) : Mat :=
  let AA := subMat fmM (N - 1 - k) i (k - i) i
  let AA1 := subMat fMm (N - 1 - k) i (k - i) i
  let RAA := subMat frfc (N - 1 - k) i (k - i) i
  let nA := max AA.length ((AA.headD []).length)
  let MA := (fmax.drop (N - 1 - k)).take i
  let mA := (fmin.drop (k - i)).take i
  let SA := matSum AA
  let SRA := matSum RAA
  let DRFC := SA - SRA
  let NT := max (min (mA.headD 0 - colSumAt RAA 0) (MA.headD 0 - (RAA.headD []).sum)) 0
  if NT > mcTol * max (MA.headD 0) (mA.headD 0) then
    let NN := List.zipWith (fun a b => a - b) MA (rowSums AA)
    let e0 := (List.zipWith (fun a b => a - b) mA (colSums AA nA)).reverse
    let pe := (List.range nA).foldl (fun pe j =>
        let norm := mA.getD (nA - 1 - j) 0
        if norm ≠ 0 then
          (pe.1.set j ((pe.1.getD j []).map (fun a => a / norm)), pe.2.set j (pe.2.getD j 0 / norm))
        else pe) (rot90 AA nA, e0)
    let PmM := pe.1
    let e := pe.2
    let fx :=
      if maxAbs e > mcTol ∧ maxAbs NN > mcTol * max (MA.headD 0) (mA.headD 0) then
        let PMm := ((List.range nA).foldl (fun P j =>
            let norm := MA.getD j 0
            if norm ≠ 0 then P.set j ((P.getD j []).map (fun a => a / norm)) else P) AA1).map
          List.reverse
        let A := PMm
        let B := PmM
        if nA = 1 then
          NN.getD 0 0 * (mget A 0 0 / (1 - mget B 0 0 * mget A 0 0) * e.getD 0 0)
        else
          dotq NN (matVec A (linsolve (matSub (idMat nA) (matMul B A nA)) e) nA)
      else 0
    mset frfc (N - 1 - k) (k - i) (fx + DRFC)
  else
    mset frfc (N - 1 - k) (k - i) 0

/-- One shell `k` of `mctp2rfc`: the inner `i` loop followed by the
boundary cell `(N-1-k, 0)` (misc.py lines 1063-1123). -/
def mctpShell (fmM fMm : Mat) (fmax fmin : List ℚ) (N : ℕ) (frfc : Mat) (k : ℕ) : Mat :=
  let f1 := (List.range' 1 (k - 1)).foldl (mctpCell fmM fMm fmax fmin N k) frfc
  let m0 := max 0 (fmin.getD 0 0 - ((f1.drop (N - k + 1)).map (fun r => r.getD 0 0)).sum)
  let M0 := max 0 (fmax.getD (N - 1 - k) 0 - (((f1.getD (N - 1 - k) []).drop 1).take (k - 1)).sum)
  mset f1 (N - 1 - k) 0 (min m0 M0)

/-- One step `k` of the final pass of `mctp2rfc` (misc.py lines
1127-1131): fill cell `(0, N-1-k)` from the residual marginals. -/
def mctpLast (fmax fmin : List ℚ) (N : ℕ) (frfc : Mat) (k : ℕ) : Mat :=
  let M0 := max 0 (fmax.getD 0 0 - ((frfc.headD []).drop (N - k)).sum)
  let m0 := max 0 (fmin.getD (N - 1 - k) 0 - (((frfc.drop 1).take k).map (fun r => r.getD (N - 1 - k) 0)).sum)
  mset frfc 0 (N - 1 - k) (min m0 M0)

/-- `mctp2rfc(fmM, fMm)` (misc.py lines 1009-1148): the rainflow matrix of
a min-to-max Markov matrix; a missing `fMm` defaults to a copy of `fmM`. -/
def mctp2rfc (fmM : Mat) (fMm : Option Mat) : Mat :=
  let fMm' := fMm.getD fmM
  let N := fmM.length
  let fmax := rowSums fmM
  let fmin := colSums fmM N
  let f0 := mset (mset (zeroMat N N) (N - 2) 0 (fmax.getD (N - 2) 0)) 0 (N - 2) (fmin.getD (N - 2) 0)
  let f1 := (List.range' 2 (N - 3)).foldl (mctpShell fmM fMm' fmax fmin N) f0
  (List.range' 1 (N - 1)).foldl (mctpLast fmax fmin N) f1

/-! ## Specification-side notions used in the statements and proofs -/

/-- The amplitude of the cycle described by an index pair emitted by
`findrfc`: the absolute difference of the two turning-point values. -/
def ampl (tp : List ℚ) (p : ℕ × ℕ) : ℚ := |tp.getD p.1 0 - tp.getD p.2 0|

/-- A strictly alternating turning-point sequence: every interior point is
a strict local maximum or a strict local minimum. -/
def isAlternating (tp : List ℚ) : Bool :=
  (List.range (tp.length - 2)).all (fun i =>
    decide ((tp.getD i 0 < tp.getD (i + 1) 0 ∧ tp.getD (i + 2) 0 < tp.getD (i + 1) 0) ∨
            (tp.getD (i + 1) 0 < tp.getD i 0 ∧ tp.getD (i + 1) 0 < tp.getD (i + 2) 0)))

/-- Whether the step from sample `k` to sample `k + 1` goes up. -/
def dirB (x : List ℚ) (k : ℕ) : Bool := decide (x.getD k 0 < x.getD (k + 1) 0)

/-- The interior strict-direction-change indices of a signal without equal
consecutive samples; on such signals this coincides with `findextrema`. -/
def extIdx (x : List ℚ) : List ℕ :=
  (List.range' 1 (x.length - 2)).filter (fun k => dirB x (k - 1) != dirB x k)

/-- A strict zigzag: consecutive samples differ and the direction reverses
at every interior sample. -/
def Zig (l : List ℚ) : Prop :=
  l.Chain' (· ≠ ·) ∧
  ∀ i, i + 2 < l.length → ((l.getD i 0 < l.getD (i + 1) 0) ↔ (l.getD (i + 2) 0 < l.getD (i + 1) 0))

/-- The 4 x 4 min-to-max matrix whose mass sits on the adjacent-level
diagonal of the wafo layout: cells `(i, N-2-i)`, i.e. transitions from a
minimum at one discretisation level to the maximum one level above. -/
def adjDiagM (p q r : ℚ) : Mat := [[0, 0, r, 0], [0, q, 0, 0], [p, 0, 0, 0], [0, 0, 0, 0]]

/-- The invariant of the `rfcfilter` loop used for claim C10: the warning
never fires and the direction flag stays in `{-1, 0, 1}`. -/
def RfInv (s : RfState) : Prop := s.warned = false ∧ (s.z0 = 0 ∨ s.z0 = 1 ∨ s.z0 = -1)

/-- The candidate trough used by iteration `i` of the rainflow loop. -/
def rfcTrough (y : List ℚ) (Tstart : ℕ) (i : ℕ) : ℚ × ℕ :=
  if i ≠ 0 then
    backScan y (y.getD (2 * i + 1) 0) Tstart i (y.getD (2 * i) 0, Tstart + 2 * i)
  else (y.getD (2 * i) 0, Tstart + 2 * i)

/-- The direction flag the rainflow filter holds after processing sample
`i` of a signal without equal consecutive samples. -/
def zsign (x : List ℚ) (i : ℕ) : ℤ := if dirB x (i - 1) then 1 else -1

/-- The interior strict-direction-change indices among `1 .. i - 1`. -/
def extIdxUpTo (x : List ℚ) (i : ℕ) : List ℕ :=
  (List.range' 1 (i - 1)).filter (fun k => dirB x (k - 1) != dirB x k)

/-- The invariant of the `rfcfilter` loop at `h = 0` with the inclusive
method, used for the idempotence part of claim C7: the retained prefix is
a strict zigzag, the tracked value is the signal value at the tracked
index, and the running extremum continues the zigzag in the direction of
the flag. -/
def ZInv (x : List ℚ) (s : RfState) : Prop :=
  s.ts ≠ [] ∧ s.y0 = x.getD s.t0 0 ∧
  (s.z0 = 0 ∧ s.ts = [0] ∧ s.t0 = 0 ∧ s.y0 = x.getD 0 0 ∨
   (s.z0 = 1 ∨ s.z0 = -1) ∧
     Zig ((s.ts.map (fun i => x.getD i 0)) ++ [s.y0]) ∧
     (s.z0 = 1 → (s.ts.map (fun i => x.getD i 0)).getLastD 0 < s.y0) ∧
     (s.z0 = -1 → s.y0 < (s.ts.map (fun i => x.getD i 0)).getLastD 0))

/-! # Theorems -/

/-- Claim C4 (confirmed): `findcross([0, 1, -1, 1], level=0)` with no kind
filter returns exactly `[0, 1, 2]`; the leading exact-zero sample is
folded onto the direction determined by the first non-plateau value and
counts as a crossing at index 0. -/
theorem claim_C4 : findcross [0, 1, -1, 1] 0 none = .ok [0, 1, 2] := by
  with_unfolding_all decide

/-- Claim C2, counterexample: `findcross([0, 1, -1, 1], 0, all)` returns
index 0, but `(x[0] - v) * (x[1] - v) = 0` there, so the strict inequality
`(x[i] - v) * (x[i+1] - v) < 0` claimed for every returned index fails. -/
theorem claim_C2_counterexample :
    0 ∈ findcrossList [0, 1, -1, 1] 0 ∧
    ¬ ((([0, 1, -1, 1] : List ℚ).getD 0 0 - 0) * (([0, 1, -1, 1] : List ℚ).getD 1 0 - 0) < 0) := by
  with_unfolding_all decide

/-- Claim C3, counterexample: on the signal `[1, 1]` (which has no level-0
crossings) `findcross` returns an empty result without raising, even
though the kind selector is invalid — the unknown-kind check is not
reached, so rejection is neither immediate nor independent of the input
signal. -/
theorem claim_C3_counterexample :
    findcross [1, 1] 0 (some "bogus") = .ok [] := by with_unfolding_all decide

/-- Claim C9, counterexample: on the strictly monotonic (degenerate)
signal `[0, 1, 2]`, `findtp` returns the Python sentinel `None` — not an
empty or partial index result. -/
theorem claim_C9_counterexample : findtp [0, 1, 2] 0 none = none := by
  with_unfolding_all decide

/-- Claim C7, counterexample: on `[2, 0, 2, 0, 2]` the rainflow filter at
`h = 0` with the inclusive method returns all five samples, while the
turning points `findtp` returns are the four indices `[1, 2, 3, 4]` (the
first sample is not included because the sequence starts with a minimum),
so `rfcfilter(x, 0, 1)` is not the turning-point sequence of `x`. -/
theorem claim_C7_counterexample :
    rfcfilter [2, 0, 2, 0, 2] 0 1 = [2, 0, 2, 0, 2] ∧
    (findtp [2, 0, 2, 0, 2] 0 none).map
      (fun l => l.map (fun i => ([2, 0, 2, 0, 2] : List ℚ).getD i 0)) = some [0, 2, 0, 2] ∧
    ([2, 0, 2, 0, 2] : List ℚ) ≠ [0, 2, 0, 2] := by with_unfolding_all decide

/-- Claim C1, counterexample: the 3 x 3 Markov matrix with all mass on the
main diagonal (unit mass at cell `(1, 1)`).  `mctp2rfc` moves the mass to
the off-diagonal cell `(1, 0)`, and the column-0 sum of the output
exceeds the column-0 marginal of the input by 1, far beyond the `1e-6`
tolerance. -/
theorem claim_C1_counterexample :
    (∀ i, i < 3 → ∀ j, j < 3 → i ≠ j → mget [[0, 0, 0], [0, 1, 0], [0, 0, 0]] i j = 0) ∧
    mget (mctp2rfc [[0, 0, 0], [0, 1, 0], [0, 0, 0]] none) 1 0 = 1 ∧
    colSumAt [[0, 0, 0], [0, 1, 0], [0, 0, 0]] 0 + 1 / 1000000 <
      colSumAt (mctp2rfc [[0, 0, 0], [0, 1, 0], [0, 0, 0]] none) 0 := by
  with_unfolding_all decide

/-- Claim C8 (confirmed): for a negative threshold `findtp` returns the
identity index sequence `0 .. n-1` immediately, regardless of the kind
argument. -/
theorem claim_C8 (x : List ℚ) (h : ℚ) (kind : Option String) (hh : h < 0) :
    findtp x h kind = some (List.range x.length) := by
  simp [findtp, hh]

/-- Witness for C8 at a concrete input. -/
theorem claim_C8_witness : findtp [5, 1, 3] (-1) none = some (List.range 3) :=
  claim_C8 [5, 1, 3] (-1) none (by norm_num)

/-- `cmp1 m a b` is the boolean negation of `cmp2 m b a`: the two
comparators of `rfcfilter` split every comparison exhaustively and
exclusively, whatever the method value. -/
theorem cmp1_eq_not_cmp2 (m : ℤ) (a b : ℚ) : cmp1 m a b = !cmp2 m b a := by
  unfold cmp1 cmp2
  split_ifs <;> simp [decide_eq_decide, not_lt, ← decide_not]

/-- A single `rfcfilter` step preserves `RfInv`. -/
theorem rfStep_inv (m : ℤ) (h : ℚ) (x : List ℚ) (s : RfState) (ti : ℕ)
    (hs : RfInv s) : RfInv (rfStep m h x s ti) := by
  obtain ⟨hw, hz⟩ := hs
  unfold rfStep
  by_cases h0 : s.z0 = 0
  · simp only [h0, if_pos rfl]
    refine ⟨hw, ?_⟩
    split_ifs <;> simp
  · simp only [if_neg h0]
    have hz1 : s.z0 = 1 ∨ s.z0 = -1 := hz.resolve_left h0
    have hc : rfCondDown m s.z0 s.y0 (x.getD ti 0) h = true ∨
        rfCondUp m s.z0 s.y0 (x.getD ti 0) h = true := by
      rcases hz1 with hz1 | hz1 <;>
        simp only [rfCondDown, rfCondUp, hz1, cmp1_eq_not_cmp2] <;>
        rcases Bool.eq_false_or_eq_true (cmp2 m (s.y0 - h) (x.getD ti 0)) with hb | hb <;>
        rcases Bool.eq_false_or_eq_true (cmp2 m (x.getD ti 0) (s.y0 + h)) with hb' | hb' <;>
        simp [hb, hb']
    rcases hc with hc | hc
    · simp only [hc]
      refine ⟨by simp [hw], by simp⟩
    · rcases Bool.eq_false_or_eq_true (rfCondDown m s.z0 s.y0 (x.getD ti 0) h) with hd | hd <;>
        simp only [hd, hc] <;> exact ⟨by simp [hw], by simp⟩

/-- `RfInv` holds after any run of the `rfcfilter` loop. -/
theorem rfRun_inv (m : ℤ) (h : ℚ) (x : List ℚ) (i : ℕ) : RfInv (rfRun m h x i) := by
  have : ∀ (l : List ℕ) (s : RfState), RfInv s → RfInv (l.foldl (rfStep m h x) s) := by
    intro l
    induction l with
    | nil => exact fun s hs => hs
    | cons a t ih => exact fun s hs => ih _ (rfStep_inv m h x s a hs)
  exact this _ _ ⟨rfl, Or.inl rfl⟩

/-- Claim C10 (confirmed): for every signal, threshold and method, in
every loop iteration of `rfcfilter` with an established direction flag
exactly one of the two transition conditions holds (each is the boolean
negation of the other), so the `Something wrong` warning branch is
unreachable and the new direction is always assigned. -/
theorem claim_C10 :
    (∀ (m z0 : ℤ) (y0 yi h : ℚ), z0 = 1 ∨ z0 = -1 →
        rfCondDown m z0 y0 yi h = !rfCondUp m z0 y0 yi h) ∧
    (∀ (x : List ℚ) (h : ℚ) (m : ℤ), rfcfilterWarned x h m = false) := by
  constructor
  · rintro m z0 y0 yi h (rfl | rfl) <;>
      simp only [rfCondDown, rfCondUp, cmp1_eq_not_cmp2] <;>
      rcases Bool.eq_false_or_eq_true (cmp2 m (y0 - h) yi) with hb | hb <;>
      rcases Bool.eq_false_or_eq_true (cmp2 m yi (y0 + h)) with hb' | hb' <;>
      simp [hb, hb']
  · intro x h m
    exact (rfRun_inv m h x (x.length - 1)).1

/-- Witness for C10: the exclusivity statement applied with concrete
arguments, together with a concrete run of the filter. -/
theorem claim_C10_witness :
    rfCondDown 0 1 0 5 1 = !rfCondUp 0 1 0 5 1 ∧ rfcfilterWarned [0, 5, 1] 2 0 = false :=
  ⟨claim_C10.1 0 1 0 5 1 (Or.inl rfl), claim_C10.2 [0, 5, 1] 2 0⟩

/-! ## List helper lemmas -/

/-- `getD` at an in-range index is `getElem`. -/
theorem getD_of_lt {α : Type} (l : List α) (j : ℕ) (h : j < l.length) (d : α) :
    l.getD j d = l[j] := by
  simp [List.getD_eq_getElem?_getD, List.getElem?_eq_getElem h]

/-- `getD` after `set` at a different position. -/
theorem getD_set_ne {α : Type} (l : List α) (q p : ℕ) (v d : α) (h : q ≠ p) :
    (l.set q v).getD p d = l.getD p d := by
  simp [List.getD_eq_getElem?_getD, List.getElem?_set_ne h]

/-- A fold whose step preserves the length preserves the length. -/
theorem foldl_length_inv {β : Type} (f : List ℤ → β → List ℤ)
    (hf : ∀ l b, (f l b).length = l.length) (ps : List β) (l : List ℤ) :
    (ps.foldl f l).length = l.length := by
  induction ps generalizing l with
  | nil => rfl
  | cons q ps ih => exact (ih (f l q)).trans (hf l q)

/-- `setRange` preserves the length. -/
theorem length_setRange (l : List ℤ) (ix : ℕ) (v : ℤ) : (setRange l ix v).length = l.length :=
  foldl_length_inv _ (fun l b => by simp) _ _

/-- A fold that only writes via `set` at positions satisfying `P` does not
change the value at a position not satisfying `P`. -/
theorem foldl_set_getD {P : ℕ → Prop} (g : List ℤ → ℕ → ℤ) (ps : List ℕ)
    (hps : ∀ q ∈ ps, P q) (l : List ℤ) (p : ℕ) (hp : ¬ P p) :
    (ps.foldl (fun m q => m.set q (g m q)) l).getD p 0 = l.getD p 0 := by
  induction ps generalizing l with
  | nil => rfl
  | cons q ps ih =>
      have hq : P q := hps q (by simp)
      have hqp : q ≠ p := fun he => hp (he ▸ hq)
      exact (ih (fun r hr => hps r (List.mem_cons_of_mem _ hr)) (l.set q (g l q))).trans
        (getD_set_ne l q p _ 0 hqp)

/-- The head value of a list via `getD`. -/
theorem headD_eq_getD {α : Type} (l : List α) (d : α) : l.headD d = l.getD 0 d := by
  cases l <;> rfl

/-- The last value of a list via `getD`. -/
theorem getLastD_eq_getD {α : Type} (l : List α) (d : α) :
    l.getLastD d = l.getD (l.length - 1) d := by
  simp [List.getD_eq_getElem?_getD, List.getLastD_eq_getLast?, List.getLast?_eq_getElem?]

/-- Every position up to the fold point `ix` computed by `zeroFold` from a
zero list `iz` that starts at position `0` is a zero position of `xn`: the
leading run of zeros is contiguous. -/
theorem zeroFold_zero_prefix (xn : List ℤ)
    (iz : List ℕ) (hiz : iz = (List.range xn.length).filter (fun i => decide (xn.getD i 0 = 0)))
    (hne : iz ≠ []) (h0 : iz.headD 0 = 0)
    (diz : List ℤ) (hdiz : diz = List.zipWith (fun (a b : ℕ) => (a : ℤ) - (b : ℤ)) iz.tail iz)
    (ix : ℕ) (hix : ix = if diz.any (fun d => decide (1 < d)) then
        iz.getD (diz.findIdx (fun d => decide (1 < d))) 0 else iz.getLastD 0) :
    ∀ p ≤ ix, xn.getD p 0 = 0 := by
  have hsort : iz.Pairwise (· < ·) := hiz ▸ (List.pairwise_lt_range _).filter _
  have hlen_diz : diz.length = iz.length - 1 := by
    rw [hdiz]; simp [List.length_zipWith]
  have hdval : ∀ j, j + 1 < iz.length → diz.getD j 0 = (iz.getD (j + 1) 0 : ℤ) - iz.getD j 0 := by
    intro j hj
    have hjd : j < diz.length := by omega
    have hjt : j < iz.tail.length := by simp [List.length_tail]; omega
    rw [getD_of_lt _ j hjd 0, getD_of_lt _ (j + 1) hj 0, getD_of_lt _ j (by omega) 0]
    subst hdiz
    rw [List.getElem_zipWith]
    simp [List.getElem_tail]
  have hadj : ∀ j, j + 1 < iz.length → iz.getD j 0 < iz.getD (j + 1) 0 := by
    intro j hj
    rw [getD_of_lt _ j (by omega) 0, getD_of_lt _ (j + 1) hj 0]
    exact List.pairwise_iff_getElem.mp hsort j (j + 1) (by omega) hj (by omega)
  -- the position `g` of the fold point inside `iz`
  obtain ⟨g, hg_lt, hix_g, hsmall⟩ :
      ∃ g, g < iz.length ∧ ix = iz.getD g 0 ∧ ∀ j < g, diz.getD j 0 ≤ 1 := by
    by_cases hany : diz.any (fun d => decide (1 < d)) = true
    · refine ⟨diz.findIdx (fun d => decide (1 < d)), ?_, ?_, ?_⟩
      · have := List.findIdx_lt_length_of_exists (List.any_eq_true.mp hany)
        omega
      · rw [hix, if_pos hany]
      · intro j hj
        have hjl : j < diz.length := lt_trans hj (List.findIdx_lt_length_of_exists
          (List.any_eq_true.mp hany))
        have := List.not_of_lt_findIdx hj
        rw [getD_of_lt _ j hjl 0]
        simpa using this
    · refine ⟨iz.length - 1, ?_, ?_, ?_⟩
      · have : iz.length ≠ 0 := fun h => hne (List.eq_nil_of_length_eq_zero h)
        omega
      · rw [hix, if_neg hany, getLastD_eq_getD]
      · intro j hj
        have hjl : j < diz.length := by omega
        have := (List.any_eq_false.mp (Bool.eq_false_iff.mpr hany)) (diz.getD j 0)
          (by rw [getD_of_lt _ j hjl 0]; exact List.getElem_mem hjl)
        simpa using this
  have hpre : ∀ j, j ≤ g → iz.getD j 0 = j := by
    intro j
    induction j with
    | zero =>
        intro _
        rw [← headD_eq_getD]
        exact h0
    | succ j ih =>
        intro hj
        have hj' : j ≤ g := by omega
        have hjlt : j + 1 < iz.length := by omega
        have h1 : diz.getD j 0 ≤ 1 := hsmall j (by omega)
        have h2 : diz.getD j 0 = (iz.getD (j + 1) 0 : ℤ) - iz.getD j 0 := hdval j hjlt
        have h3 : iz.getD j 0 < iz.getD (j + 1) 0 := hadj j hjlt
        have h4 : iz.getD j 0 = j := ih hj'
        omega
  have hixg : ix = g := by rw [hix_g, hpre g le_rfl]
  intro p hp
  have hplt : p < iz.length := by omega
  have hgp : iz.getD p 0 = p := hpre p (by omega)
  have hmem : p ∈ iz := by
    rw [getD_of_lt _ p hplt 0] at hgp
    exact hgp ▸ List.getElem_mem hplt
  rw [hiz] at hmem
  simpa using (List.mem_filter.mp hmem).2

/-- The value of `zeroFold` on its three control-flow branches, with the
let-bound quantities named. -/
theorem zeroFold_eq (xn : List ℤ) :
    zeroFold xn =
      (fun iz =>
        if iz = [] then xn
        else if iz.headD 0 = 0 then
          (fun ix =>
            (iz.drop (ix + 1)).foldl (fun l p => l.set p (l.getD (p - 1) 0))
              (setRange xn ix (-(xn.getD (ix + 1) 0))))
          ((fun diz =>
            if diz.any (fun d => decide (1 < d)) then
              iz.getD (diz.findIdx (fun d => decide (1 < d))) 0
            else iz.getLastD 0)
            (List.zipWith (fun (a b : ℕ) => (a : ℤ) - (b : ℤ)) iz.tail iz))
        else iz.foldl (fun l p => l.set p (l.getD (p - 1) 0)) xn)
      ((List.range xn.length).filter (fun i => decide (xn.getD i 0 = 0))) := rfl

/-- `zeroFold` only rewrites positions where the sign vector is zero. -/
theorem zeroFold_preserve (xn : List ℤ) (p : ℕ) (hp : xn.getD p 0 ≠ 0) :
    (zeroFold xn).getD p 0 = xn.getD p 0 := by
  rw [zeroFold_eq]
  simp only []
  set iz := (List.range xn.length).filter (fun i => decide (xn.getD i 0 = 0)) with hiz
  have hmem_zero : ∀ q ∈ iz, xn.getD q 0 = 0 := by
    intro q hq
    rw [hiz] at hq
    simpa using (List.mem_filter.mp hq).2
  by_cases hnil : iz = []
  · rw [if_pos hnil]
  · rw [if_neg hnil]
    by_cases hh : iz.headD 0 = 0
    · rw [if_pos hh]
      set diz := List.zipWith (fun (a b : ℕ) => (a : ℤ) - (b : ℤ)) iz.tail iz with hdiz
      set ix := if diz.any (fun d => decide (1 < d)) then
          iz.getD (diz.findIdx (fun d => decide (1 < d))) 0 else iz.getLastD 0 with hix
      have hzp := zeroFold_zero_prefix xn iz hiz hnil hh diz hdiz ix hix
      have h1 : (setRange xn ix (-(xn.getD (ix + 1) 0))).getD p 0 = xn.getD p 0 := by
        unfold setRange
        exact foldl_set_getD (P := fun q => xn.getD q 0 = 0) _ _
          (fun q hq => hzp q (Nat.lt_succ_iff.mp (List.mem_range.mp hq))) _ _ hp
      exact (foldl_set_getD (P := fun q => xn.getD q 0 = 0) _ _
        (fun q hq => hmem_zero q (List.mem_of_mem_drop hq)) _ _ hp).trans h1
    · rw [if_neg hh]
      exact foldl_set_getD (P := fun q => xn.getD q 0 = 0) _ _ hmem_zero _ _ hp

/-- `zeroFold` preserves the length of the sign vector. -/
theorem length_zeroFold (xn : List ℤ) : (zeroFold xn).length = xn.length := by
  rw [zeroFold_eq]
  simp only []
  split_ifs <;>
    first
      | rfl
      | exact (foldl_length_inv (fun l p => l.set p (l.getD (p - 1) 0))
          (fun l b => List.length_set l b _) _ _).trans (length_setRange _ _ _)
      | exact foldl_length_inv (fun l p => l.set p (l.getD (p - 1) 0))
          (fun l b => List.length_set l b _) _ _

/-- The sign vector of `x` at level `v`, pointwise. -/
theorem getD_signVec (x : List ℚ) (v : ℚ) (j : ℕ) (hj : j < x.length) :
    (x.map (fun xi => signq (xi - v))).getD j 0 = signq (x.getD j 0 - v) := by
  rw [getD_of_lt _ j (by simpa using hj) 0, getD_of_lt _ j hj 0]
  simp

/-- Claim C2, amended: for every signal and level, `findcross` with
`kind = all` returns exactly the crossing list, and every returned index
`i` satisfies the non-strict inequality
`(x[i] - v) * (x[i+1] - v) ≤ 0` (the strict form fails when a sample lies
exactly at the level; the plateau folding can emit a crossing there). -/
theorem claim_C2_amended :
    (∀ (x : List ℚ) (v : ℚ), findcross x v (some "all") = .ok (findcrossList x v)) ∧
    (∀ (x : List ℚ) (v : ℚ) (i : ℕ), i ∈ findcrossList x v →
      (x.getD i 0 - v) * (x.getD (i + 1) 0 - v) ≤ 0) := by
  constructor
  · intro x v
    unfold findcross
    by_cases hind : findcrossSigns (x.map (fun xi => signq (xi - v))) = []
    · rw [if_pos hind]
      simp [findcrossList, hind]
    · rw [if_neg hind, if_pos (by simp)]
      simp [findcrossList]
  · intro x v i hi
    set xn := x.map (fun xi => signq (xi - v)) with hxn
    have hxlen : xn.length = x.length := by simp [hxn]
    have hi' : i ∈ crossIdx (zeroFold xn) := by
      unfold findcrossList findcrossSigns at hi
      by_cases hz : xn ≠ [] ∧ xn.all (fun a => a == 0)
      · rw [← hxn, if_pos hz] at hi
        exact absurd hi (List.not_mem_nil i)
      · rwa [← hxn, if_neg hz] at hi
    obtain ⟨hir, hprod⟩ := List.mem_filter.mp hi'
    have hzlen : (zeroFold xn).length = xn.length := length_zeroFold xn
    have hirange : i + 1 < x.length := by
      have := List.mem_range.mp hir
      omega
    have hprod' : (zeroFold xn).getD i 0 * (zeroFold xn).getD (i + 1) 0 < 0 := by
      simpa using hprod
    by_contra hcon
    push_neg at hcon
    have hz : ∀ j, j < x.length → 0 < x.getD j 0 - v → (zeroFold xn).getD j 0 = 1 := by
      intro j hj hpos
      have hs : xn.getD j 0 = 1 := by
        rw [hxn, getD_signVec x v j hj]
        unfold signq
        rw [if_neg (by linarith), if_pos hpos]
      exact (zeroFold_preserve xn j (by rw [hs]; norm_num)).trans hs
    have hz' : ∀ j, j < x.length → x.getD j 0 - v < 0 → (zeroFold xn).getD j 0 = -1 := by
      intro j hj hneg
      have hs : xn.getD j 0 = -1 := by
        rw [hxn, getD_signVec x v j hj]
        unfold signq
        rw [if_pos hneg]
      exact (zeroFold_preserve xn j (by rw [hs]; norm_num)).trans hs
    rcases mul_pos_iff.mp hcon with ⟨ha, hb⟩ | ⟨ha, hb⟩
    · rw [hz i (by omega) ha, hz (i + 1) hirange hb] at hprod'
      norm_num at hprod'
    · rw [hz' i (by omega) ha, hz' (i + 1) hirange hb] at hprod'
      norm_num at hprod'

/-- Witness for the amended C2 at a concrete signal. -/
theorem claim_C2_witness :
    findcross [0, 1, -1, 1] 0 (some "all") = .ok (findcrossList [0, 1, -1, 1] 0) ∧
    (([0, 1, -1, 1] : List ℚ).getD 1 0 - 0) * (([0, 1, -1, 1] : List ℚ).getD 2 0 - 0) ≤ 0 :=
  ⟨claim_C2_amended.1 [0, 1, -1, 1] 0,
   claim_C2_amended.2 [0, 1, -1, 1] 0 1 (by with_unfolding_all decide)⟩

/-- For a non-zero method argument the two comparators of `rfcfilter` are
those of method 1: the method value is never validated. -/
theorem cmp_ne_zero (m : ℤ) (hm : m ≠ 0) : cmp1 m = cmp1 1 ∧ cmp2 m = cmp2 1 := by
  constructor <;> funext a b <;> simp [cmp1, cmp2, hm]

/-- Claim C3, amended: an unknown `kind` selector makes `findcross` raise
the invalid-argument error if and only if the signal has at least one
crossing — the check happens after the crossing computation and is skipped
entirely on crossing-free signals; and `rfcfilter` never rejects its
method selector: every non-zero method behaves exactly like method 1. -/
theorem claim_C3_amended :
    (∀ (x : List ℚ) (v : ℚ) (kind : Option String), kind ∉ validKinds →
      ((∃ e, findcross x v kind = .error e) ↔ findcrossList x v ≠ [])) ∧
    (∀ (x : List ℚ) (h : ℚ) (m : ℤ), m ≠ 0 → rfcfilter x h m = rfcfilter x h 1) := by
  constructor
  · intro x v kind hk
    simp only [validKinds, List.mem_cons, List.not_mem_nil, or_false, not_or] at hk
    obtain ⟨k1, k2, k3, k4, k5, k6, k7, k8, k9⟩ := hk
    unfold findcross
    by_cases hind : findcrossSigns (x.map (fun xi => signq (xi - v))) = []
    · rw [if_pos hind]
      constructor
      · rintro ⟨e, he⟩
        exact Except.noConfusion he
      · intro hne
        exact absurd (show findcrossList x v = [] by simpa [findcrossList] using hind) hne
    · rw [if_neg hind, if_neg (by simp [k1, k2, k3]), if_neg k4, if_neg k5,
        if_neg (by simp [k6, k7, k8, k9])]
      constructor
      · intro _
        simpa [findcrossList] using hind
      · intro _
        exact ⟨_, rfl⟩
  · intro x h m hm
    obtain ⟨h1, h2⟩ := cmp_ne_zero m hm
    have hstep : rfStep m h x = rfStep 1 h x := by
      funext s ti
      unfold rfStep rfCondDown rfCondUp
      rw [h1, h2]
    have hrun : rfRun m h x = rfRun 1 h x := by
      funext i
      unfold rfRun
      rw [hstep]
    unfold rfcfilter rfcfilterT
    rw [hrun, h1]

/-- Witness for the amended C3 at concrete inputs. -/
theorem claim_C3_witness :
    ((∃ e, findcross [0, 1, -1] 0 (some "xx") = .error e) ↔ findcrossList [0, 1, -1] 0 ≠ []) ∧
    rfcfilter [0, 1] 0 2 = rfcfilter [0, 1] 0 1 :=
  ⟨claim_C3_amended.1 [0, 1, -1] 0 (some "xx") (by with_unfolding_all decide),
   claim_C3_amended.2 [0, 1] 0 2 (by norm_num)⟩

/-! ## Degenerate signals: claim C9 -/

/-- `zeroFold` is the identity on a sign vector without zeros. -/
theorem zeroFold_of_no_zero (xn : List ℤ) (h : ∀ j, j < xn.length → xn.getD j 0 ≠ 0) :
    zeroFold xn = xn := by
  rw [zeroFold_eq]
  simp only []
  rw [if_pos]
  exact List.filter_eq_nil_iff.mpr (fun a ha => by simpa using h a (List.mem_range.mp ha))

/-- A sign vector that is constantly `1` or constantly `-1` has no
crossings. -/
theorem findcrossSigns_of_const (xn : List ℤ) (s : ℤ) (hs : s = 1 ∨ s = -1)
    (h : ∀ j, j < xn.length → xn.getD j 0 = s) : findcrossSigns xn = [] := by
  have hnz : ∀ j, j < xn.length → xn.getD j 0 ≠ 0 := by
    intro j hj
    rw [h j hj]
    rcases hs with rfl | rfl <;> norm_num
  unfold findcrossSigns
  rw [if_neg, zeroFold_of_no_zero xn hnz]
  · unfold crossIdx
    apply List.filter_eq_nil_iff.mpr
    intro a ha
    have ha' := List.mem_range.mp ha
    rw [h a (by omega), h (a + 1) (by omega)]
    rcases hs with rfl | rfl <;> norm_num
  · rintro ⟨hne, hall⟩
    have h0 : xn.length ≠ 0 := fun he => hne (List.eq_nil_of_length_eq_zero he)
    have := List.all_eq_true.mp hall (xn.getD 0 0)
      (by rw [getD_of_lt _ 0 (by omega) 0]; exact List.getElem_mem (by omega))
    rw [h 0 (by omega)] at this
    rcases hs with rfl | rfl <;> simp at this

/-- A sign vector that is constantly `0` has no crossings: the code
returns empty with the all-values-at-level advisory. -/
theorem findcrossSigns_of_zero (xn : List ℤ)
    (h : ∀ j, j < xn.length → xn.getD j 0 = 0) : findcrossSigns xn = [] := by
  unfold findcrossSigns
  by_cases hne : xn = []
  · subst hne
    rw [if_neg (by simp)]
    rfl
  · rw [if_pos]
    refine ⟨hne, List.all_eq_true.mpr ?_⟩
    intro a ha
    obtain ⟨j, hj, rfl⟩ := List.getElem_of_mem ha
    have := h j hj
    rw [getD_of_lt _ j hj 0] at this
    simp [this]

/-- Pointwise value of the first difference. -/
theorem getD_diffq (x : List ℚ) (i : ℕ) (hi : i + 1 < x.length) :
    (diffq x).getD i 0 = x.getD (i + 1) 0 - x.getD i 0 := by
  have hlen : (diffq x).length = x.length - 1 := by
    simp [diffq, List.length_zipWith, List.length_tail]
  rw [getD_of_lt _ i (by omega) 0, getD_of_lt _ (i + 1) hi 0, getD_of_lt _ i (by omega) 0]
  unfold diffq
  rw [List.getElem_zipWith]
  simp [List.getElem_tail]

/-- Pointwise form of `Chain'`. -/
theorem chain'_getD {R : ℚ → ℚ → Prop} {x : List ℚ} (hc : x.Chain' R) (i : ℕ)
    (hi : i + 1 < x.length) : R (x.getD i 0) (x.getD (i + 1) 0) := by
  rw [getD_of_lt _ i (by omega) 0, getD_of_lt _ (i + 1) hi 0]
  have := List.chain'_iff_get.mp hc i (by omega)
  simpa using this

/-- Claim C9, amended: on a degenerate signal (strictly monotonic in
either direction, or constant) `findtp` is non-fatal but returns the
Python sentinel `None` — not an empty or partial index array — while the
advisory is emitted by the crossing finder applied to the differenced
signal (its crossing list is empty). -/
theorem claim_C9_amended (x : List ℚ) (h : ℚ) (kind : Option String) (h0 : 0 ≤ h)
    (hmono : x.Chain' (· < ·) ∨ x.Chain' (· > ·) ∨ x.Chain' (· = ·)) :
    findtp x h kind = none ∧ findcrossWarn (diffq x) 0 = true := by
  have hdlen : (diffq x).length = x.length - 1 := by
    simp [diffq, List.length_zipWith, List.length_tail]
  have hext : findcrossList (diffq x) 0 = [] := by
    unfold findcrossList
    rcases hmono with hc | hc | hc
    · apply findcrossSigns_of_const _ 1 (Or.inl rfl)
      intro j hj
      rw [List.length_map] at hj
      rw [getD_signVec _ 0 j hj, sub_zero, getD_diffq x j (by omega)]
      have := chain'_getD hc j (by omega)
      unfold signq
      rw [if_neg (by linarith), if_pos (by linarith)]
    · apply findcrossSigns_of_const _ (-1) (Or.inr rfl)
      intro j hj
      rw [List.length_map] at hj
      rw [getD_signVec _ 0 j hj, sub_zero, getD_diffq x j (by omega)]
      have := chain'_getD hc j (by omega)
      unfold signq
      rw [if_pos (by linarith [this])]
    · apply findcrossSigns_of_zero
      intro j hj
      rw [List.length_map] at hj
      rw [getD_signVec _ 0 j hj, sub_zero, getD_diffq x j (by omega)]
      have hjj := chain'_getD hc j (by omega)
      rw [hjj]
      simp [signq]
  have hnlt : ¬ h < 0 := not_lt.mpr h0
  constructor
  · simp [findtp, hnlt, findextrema, hext]
  · simp [findcrossWarn, hext]

/-- Witness for the amended C9 at a concrete strictly increasing signal. -/
theorem claim_C9_witness :
    findtp [0, 1, 2] 0 none = none ∧ findcrossWarn (diffq [0, 1, 2]) 0 = true :=
  claim_C9_amended [0, 1, 2] 0 none (by norm_num)
    (Or.inl (by norm_num [List.chain'_cons, List.chain'_singleton]))

/-! ## Rainflow cycle counting: claims C5 and C6 -/

/-- `getD` after `drop`. -/
theorem getD_drop (l : List ℚ) (k m : ℕ) : (l.drop k).getD m 0 = l.getD (k + m) 0 := by
  simp [List.getD_eq_getElem?_getD, List.getElem?_drop]

/-- The backward scan preserves the invariant that the tracked trough
value is the value of the sequence at the tracked index. -/
theorem backScan_inv (y : List ℚ) (yi1 : ℚ) (Tstart : ℕ) (j : ℕ) :
    ∀ st : ℚ × ℕ, st.1 = y.getD (st.2 - Tstart) 0 ∧ Tstart ≤ st.2 →
      (backScan y yi1 Tstart j st).1 = y.getD ((backScan y yi1 Tstart j st).2 - Tstart) 0 ∧
      Tstart ≤ (backScan y yi1 Tstart j st).2 := by
  induction j with
  | zero => intro st hst; simpa [backScan] using hst
  | succ j ih =>
      intro st hst
      simp only [backScan]
      split_ifs with hc hu
      · exact ih _ ⟨by simp, by omega⟩
      · exact ih _ hst
      · exact hst

/-- The forward scan preserves the invariant that the tracked crest value
is the value of the sequence at the tracked index. -/
theorem fwdScan_inv (y : List ℚ) (yi1 : ℚ) (Tstart : ℕ) (fuel : ℕ) :
    ∀ (j : ℕ) (st : ℚ × ℕ), st.1 = y.getD (st.2 - Tstart) 0 ∧ Tstart ≤ st.2 →
      ∀ stp, fwdScan y yi1 Tstart fuel j st = some stp →
        stp.1 = y.getD (stp.2 - Tstart) 0 ∧ Tstart ≤ stp.2 := by
  induction fuel with
  | zero => intro j st hst stp hs; simp [fwdScan] at hs
  | succ fuel ih =>
      intro j st hst stp hs
      simp only [fwdScan] at hs
      split_ifs at hs with hc hu
      · obtain rfl : st = stp := by simpa using hs
        exact hst
      · refine ih (j + 1) _ ⟨?_, by omega⟩ stp hs
        have e : Tstart + 2 * j + 2 - Tstart = 2 * j + 2 := by omega
        simp [e]
      · exact ih (j + 1) _ hst stp hs

/-- The candidate trough satisfies the value-at-index invariant. -/
theorem rfcTrough_inv (y : List ℚ) (Tstart i : ℕ) :
    (rfcTrough y Tstart i).1 = y.getD ((rfcTrough y Tstart i).2 - Tstart) 0 ∧
    Tstart ≤ (rfcTrough y Tstart i).2 := by
  unfold rfcTrough
  split_ifs
  · exact backScan_inv _ _ _ _ _ ⟨by simp, by omega⟩
  · exact ⟨by simp, by omega⟩

/-- `rfcStep` in terms of the named candidate trough. -/
theorem rfcStep_eq (y : List ℚ) (h : ℚ) (Tstart NC i : ℕ) :
    rfcStep y h Tstart NC i =
      (if y.getD (2 * i + 2) 0 ≤ (rfcTrough y Tstart i).1 then
        if h ≤ y.getD (2 * i + 1) 0 - (rfcTrough y Tstart i).1 then
          [((rfcTrough y Tstart i).2, Tstart + 2 * i + 1)] else []
      else
        match fwdScan y (y.getD (2 * i + 1) 0) Tstart (NC - (i + 1)) (i + 1)
            (y.getD (2 * i + 2) 0, Tstart + 2 * i + 2) with
        | none =>
            if h ≤ y.getD (2 * i + 1) 0 - (rfcTrough y Tstart i).1 then
              [((rfcTrough y Tstart i).2, Tstart + 2 * i + 1)] else []
        | some stp =>
            if stp.1 ≤ (rfcTrough y Tstart i).1 then
              if h ≤ y.getD (2 * i + 1) 0 - (rfcTrough y Tstart i).1 then
                [((rfcTrough y Tstart i).2, Tstart + 2 * i + 1)] else []
            else if h ≤ y.getD (2 * i + 1) 0 - stp.1 then
              [(Tstart + 2 * i + 1, stp.2)] else []) := rfl

/-- At most one pair is emitted per iteration of the rainflow loop. -/
theorem rfcStep_length (y : List ℚ) (h : ℚ) (Tstart NC i : ℕ) :
    (rfcStep y h Tstart NC i).length ≤ 1 := by
  rw [rfcStep_eq]
  split
  · split <;> simp
  · split
    · split <;> simp
    · split
      · split <;> simp
      · split <;> simp

/-- Every pair emitted by an iteration of the rainflow loop has amplitude
at least `h` (for `h ≥ 0`), and both of its indices are at least
`Tstart`. -/
theorem rfcStep_mem (y : List ℚ) (h : ℚ) (h0 : 0 ≤ h) (Tstart NC i : ℕ) (p : ℕ × ℕ)
    (hp : p ∈ rfcStep y h Tstart NC i) :
    h ≤ |y.getD (p.1 - Tstart) 0 - y.getD (p.2 - Tstart) 0| ∧ Tstart ≤ p.1 ∧ Tstart ≤ p.2 := by
  obtain ⟨hv, hT⟩ := rfcTrough_inv y Tstart i
  have hcr : Tstart + 2 * i + 1 - Tstart = 2 * i + 1 := by omega
  rw [rfcStep_eq] at hp
  have hminus : ∀ hg : h ≤ y.getD (2 * i + 1) 0 - (rfcTrough y Tstart i).1,
      p = ((rfcTrough y Tstart i).2, Tstart + 2 * i + 1) →
      h ≤ |y.getD (p.1 - Tstart) 0 - y.getD (p.2 - Tstart) 0| ∧ Tstart ≤ p.1 ∧ Tstart ≤ p.2 := by
    rintro hg rfl
    refine ⟨?_, hT, by omega⟩
    dsimp only
    rw [hcr, ← hv, abs_sub_comm, abs_of_nonneg (by linarith)]
    exact hg
  split at hp
  · split_ifs at hp with hg
    · exact hminus hg (List.mem_singleton.mp hp)
    · exact absurd hp (List.not_mem_nil p)
  · rename_i hxm
    split at hp
    · split_ifs at hp with hg
      · exact hminus hg (List.mem_singleton.mp hp)
      · exact absurd hp (List.not_mem_nil p)
    · rename_i stp hfw
      have hstp : stp.1 = y.getD (stp.2 - Tstart) 0 ∧ Tstart ≤ stp.2 := by
        refine fwdScan_inv y _ Tstart _ (i + 1) _ ⟨?_, by omega⟩ stp hfw
        have e : Tstart + 2 * i + 2 - Tstart = 2 * i + 2 := by omega
        simp [e]
      split_ifs at hp with hle hg hg
      · exact hminus hg (List.mem_singleton.mp hp)
      · exact absurd hp (List.not_mem_nil p)
      · obtain rfl := List.mem_singleton.mp hp
        refine ⟨?_, by omega, hstp.2⟩
        dsimp only
        rw [hcr, ← hstp.1, abs_of_nonneg (by linarith)]
        exact hg
      · exact absurd hp (List.not_mem_nil p)

/-- A `flatMap` whose pieces have length at most one is no longer than its
index list. -/
theorem length_flatMap_le (f : ℕ → List (ℕ × ℕ)) (hf : ∀ a, (f a).length ≤ 1) (l : List ℕ) :
    (l.flatMap f).length ≤ l.length := by
  induction l with
  | nil => simp
  | cons a l ih =>
      rw [List.flatMap_cons, List.length_append, List.length_cons]
      have := hf a
      omega

/-- Flattening the index pairs doubles the length. -/
theorem length_flat_pairs (ps : List (ℕ × ℕ)) :
    (ps.flatMap (fun p => [p.1, p.2])).length = 2 * ps.length := by
  induction ps with
  | nil => rfl
  | cons p ps ih => simp [List.flatMap_cons, ih]; omega

/-- `insSorted` grows the length by one. -/
theorem length_insSorted (a : ℕ) (l : List ℕ) : (insSorted a l).length = l.length + 1 := by
  induction l with
  | nil => rfl
  | cons b l ih =>
      unfold insSorted
      split_ifs <;> simp [ih]

/-- Sorting preserves the length. -/
theorem length_sortAsc (l : List ℕ) : (sortAsc l).length = l.length := by
  unfold sortAsc
  induction l with
  | nil => rfl
  | cons a l ih => simp [List.foldr_cons, length_insSorted, ih]

/-- Membership in `insSorted`. -/
theorem mem_insSorted (a b : ℕ) (l : List ℕ) : a ∈ insSorted b l ↔ a = b ∨ a ∈ l := by
  induction l with
  | nil => simp [insSorted]
  | cons c l ih =>
      unfold insSorted
      split_ifs
      · simp
      · simp [ih]
        tauto

/-- Membership in the sorted list. -/
theorem mem_sortAsc (a : ℕ) (l : List ℕ) : a ∈ sortAsc l ↔ a ∈ l := by
  unfold sortAsc
  induction l with
  | nil => simp
  | cons b l ih => simp [List.foldr_cons, mem_insSorted, ih]

/-- Claim C5 (confirmed): for every turning-point sequence and threshold
`h ≥ 0`, `findrfc` returns exactly two indices per cycle, at most
`⌊len(tp)/2⌋` cycles, and every emitted cycle pair has amplitude at least
`h`. -/
theorem claim_C5 (tp : List ℚ) (h : ℚ) (h0 : 0 ≤ h) :
    (findrfc tp h).length = 2 * (findrfcPairs tp h).length ∧
    (findrfcPairs tp h).length ≤ tp.length / 2 ∧
    ∀ p ∈ findrfcPairs tp h, h ≤ ampl tp p := by
  refine ⟨?_, ?_, ?_⟩
  · unfold findrfc
    rw [length_sortAsc, length_flat_pairs]
  · unfold findrfcPairs findrfcData
    by_cases hfirst : tp.getD 1 0 < tp.getD 0 0
    · simp only [if_pos hfirst]
      split_ifs <;>
        first
          | (simp; done)
          | (refine le_trans (length_flatMap_le _ (fun a => rfcStep_length _ _ _ _ _) _) ?_
             simp only [List.length_range]
             omega)
    · simp only [if_neg hfirst]
      split_ifs <;>
        first
          | (simp; done)
          | (refine le_trans (length_flatMap_le _ (fun a => rfcStep_length _ _ _ _ _) _) ?_
             simp only [List.length_range]
             omega)
  · intro p hp
    unfold findrfcPairs findrfcData at hp
    by_cases hfirst : tp.getD 1 0 < tp.getD 0 0
    · -- leading maximum dropped: y = tp.drop 1, Tstart = 1
      simp only [if_pos hfirst] at hp
      split_ifs at hp
      all_goals try exact absurd hp (List.not_mem_nil p)
      obtain ⟨i, _, hpi⟩ := List.mem_flatMap.mp hp
      obtain ⟨hamp, hp1, hp2⟩ := rfcStep_mem (tp.drop 1) h h0 1 _ i p hpi
      rw [getD_drop, getD_drop] at hamp
      unfold ampl
      have e1 : 1 + (p.1 - 1) = p.1 := by omega
      have e2 : 1 + (p.2 - 1) = p.2 := by omega
      rwa [e1, e2] at hamp
    · -- no drop: y = tp, Tstart = 0
      simp only [if_neg hfirst] at hp
      split_ifs at hp
      all_goals try exact absurd hp (List.not_mem_nil p)
      obtain ⟨i, _, hpi⟩ := List.mem_flatMap.mp hp
      obtain ⟨hamp, hp1, hp2⟩ := rfcStep_mem tp h h0 0 _ i p hpi
      unfold ampl
      simpa using hamp

/-- Witness for C5 at a concrete turning-point sequence. -/
theorem claim_C5_witness :
    (findrfc [0, 5, 1, 4, 2, 6] 2).length = 2 * (findrfcPairs [0, 5, 1, 4, 2, 6] 2).length ∧
    (findrfcPairs [0, 5, 1, 4, 2, 6] 2).length ≤ 3 ∧
    ∀ p ∈ findrfcPairs [0, 5, 1, 4, 2, 6] 2, (2 : ℚ) ≤ ampl [0, 5, 1, 4, 2, 6] p :=
  claim_C5 [0, 5, 1, 4, 2, 6] 2 (by norm_num)

/-- The cycle amplitude of a pair in terms of the offset working sequence
of `findrfc`. -/
theorem ampl_eq_y (tp : List ℚ) (Tstart : ℕ) (p : ℕ × ℕ) (h1 : Tstart ≤ p.1)
    (h2 : Tstart ≤ p.2) :
    ampl tp p =
      |(tp.drop Tstart).getD (p.1 - Tstart) 0 - (tp.drop Tstart).getD (p.2 - Tstart) 0| := by
  unfold ampl
  rw [getD_drop, getD_drop]
  congr 3 <;> omega

/-- Raising the threshold only removes emitted pairs, per loop
iteration. -/
theorem rfcStep_anti (y : List ℚ) (Tstart NC i : ℕ) (h1 h2 : ℚ) (hle : h1 ≤ h2)
    (p : ℕ × ℕ) (hp : p ∈ rfcStep y h2 Tstart NC i) : p ∈ rfcStep y h1 Tstart NC i := by
  rw [rfcStep_eq] at hp ⊢
  by_cases hc1 : y.getD (2 * i + 2) 0 ≤ (rfcTrough y Tstart i).1
  · rw [if_pos hc1] at hp ⊢
    split_ifs at hp with hg
    · rw [if_pos (le_trans hle hg)]
      exact hp
    · exact absurd hp (List.not_mem_nil p)
  · rw [if_neg hc1] at hp ⊢
    cases hfw : fwdScan y (y.getD (2 * i + 1) 0) Tstart (NC - (i + 1)) (i + 1)
        (y.getD (2 * i + 2) 0, Tstart + 2 * i + 2) with
    | none =>
        simp only [hfw] at hp ⊢
        split_ifs at hp with hg
        · rw [if_pos (le_trans hle hg)]
          exact hp
        · exact absurd hp (List.not_mem_nil p)
    | some stp =>
        simp only [hfw] at hp ⊢
        split_ifs at hp with hs1 hg hg
        · rw [if_pos hs1, if_pos (le_trans hle hg)]
          exact hp
        · exact absurd hp (List.not_mem_nil p)
        · rw [if_neg hs1, if_pos (le_trans hle hg)]
          exact hp
        · exact absurd hp (List.not_mem_nil p)

/-- If the threshold is at most the amplitude of every pair emitted at
threshold `0`, iteration `i` emits the same pairs at threshold `h` as at
threshold `0`. -/
theorem rfcStep_thresh (y : List ℚ) (Tstart NC i : ℕ) (h : ℚ) (h0 : 0 ≤ h)
    (hbig : ∀ p ∈ rfcStep y 0 Tstart NC i,
      h ≤ |y.getD (p.1 - Tstart) 0 - y.getD (p.2 - Tstart) 0|) :
    rfcStep y h Tstart NC i = rfcStep y 0 Tstart NC i := by
  obtain ⟨hv, hT⟩ := rfcTrough_inv y Tstart i
  have hcr : Tstart + 2 * i + 1 - Tstart = 2 * i + 1 := by omega
  have hminusA : (0 : ℚ) ≤ y.getD (2 * i + 1) 0 - (rfcTrough y Tstart i).1 →
      ((rfcTrough y Tstart i).2, Tstart + 2 * i + 1) ∈ rfcStep y 0 Tstart NC i →
      h ≤ y.getD (2 * i + 1) 0 - (rfcTrough y Tstart i).1 := by
    intro hg0 hmem
    have hb := hbig _ hmem
    dsimp only at hb
    rw [hcr, ← hv, abs_sub_comm, abs_of_nonneg hg0] at hb
    exact hb
  rw [rfcStep_eq, rfcStep_eq]
  by_cases hc1 : y.getD (2 * i + 2) 0 ≤ (rfcTrough y Tstart i).1
  · rw [if_pos hc1, if_pos hc1]
    by_cases hg0 : (0 : ℚ) ≤ y.getD (2 * i + 1) 0 - (rfcTrough y Tstart i).1
    · have hmem0 : ((rfcTrough y Tstart i).2, Tstart + 2 * i + 1) ∈ rfcStep y 0 Tstart NC i := by
        rw [rfcStep_eq, if_pos hc1, if_pos hg0]
        exact List.mem_singleton_self _
      rw [if_pos hg0, if_pos (hminusA hg0 hmem0)]
    · have hng : ¬ h ≤ y.getD (2 * i + 1) 0 - (rfcTrough y Tstart i).1 :=
        fun hcon => hg0 (le_trans h0 hcon)
      rw [if_neg hg0, if_neg hng]
  · rw [if_neg hc1, if_neg hc1]
    cases hfw : fwdScan y (y.getD (2 * i + 1) 0) Tstart (NC - (i + 1)) (i + 1)
        (y.getD (2 * i + 2) 0, Tstart + 2 * i + 2) with
    | none =>
        simp only [hfw]
        by_cases hg0 : (0 : ℚ) ≤ y.getD (2 * i + 1) 0 - (rfcTrough y Tstart i).1
        · have hmem0 : ((rfcTrough y Tstart i).2, Tstart + 2 * i + 1) ∈
              rfcStep y 0 Tstart NC i := by
            rw [rfcStep_eq, if_neg hc1]
            simp only [hfw]
            rw [if_pos hg0]
            exact List.mem_singleton_self _
          rw [if_pos hg0, if_pos (hminusA hg0 hmem0)]
        · have hng : ¬ h ≤ y.getD (2 * i + 1) 0 - (rfcTrough y Tstart i).1 :=
            fun hcon => hg0 (le_trans h0 hcon)
          rw [if_neg hg0, if_neg hng]
    | some stp =>
        simp only [hfw]
        have hstp : stp.1 = y.getD (stp.2 - Tstart) 0 ∧ Tstart ≤ stp.2 := by
          refine fwdScan_inv y _ Tstart _ (i + 1) _ ⟨?_, by omega⟩ stp hfw
          have e : Tstart + 2 * i + 2 - Tstart = 2 * i + 2 := by omega
          simp [e]
        by_cases hs1 : stp.1 ≤ (rfcTrough y Tstart i).1
        · rw [if_pos hs1, if_pos hs1]
          by_cases hg0 : (0 : ℚ) ≤ y.getD (2 * i + 1) 0 - (rfcTrough y Tstart i).1
          · have hmem0 : ((rfcTrough y Tstart i).2, Tstart + 2 * i + 1) ∈
                rfcStep y 0 Tstart NC i := by
              rw [rfcStep_eq, if_neg hc1]
              simp only [hfw]
              rw [if_pos hs1, if_pos hg0]
              exact List.mem_singleton_self _
            rw [if_pos hg0, if_pos (hminusA hg0 hmem0)]
          · have hng : ¬ h ≤ y.getD (2 * i + 1) 0 - (rfcTrough y Tstart i).1 :=
              fun hcon => hg0 (le_trans h0 hcon)
            rw [if_neg hg0, if_neg hng]
        · rw [if_neg hs1, if_neg hs1]
          by_cases hg0 : (0 : ℚ) ≤ y.getD (2 * i + 1) 0 - stp.1
          · have hmem0 : (Tstart + 2 * i + 1, stp.2) ∈ rfcStep y 0 Tstart NC i := by
              rw [rfcStep_eq, if_neg hc1]
              simp only [hfw]
              rw [if_neg hs1, if_pos hg0]
              exact List.mem_singleton_self _
            have hb := hbig _ hmem0
            dsimp only at hb
            rw [hcr, ← hstp.1, abs_of_nonneg hg0] at hb
            rw [if_pos hg0, if_pos hb]
          · have hng : ¬ h ≤ y.getD (2 * i + 1) 0 - stp.1 :=
              fun hcon => hg0 (le_trans h0 hcon)
            rw [if_neg hg0, if_neg hng]

/-- Congruence for `flatMap` over a common index list. -/
theorem flatMapCongr {α β : Type} {l : List α} {f g : α → List β}
    (h : ∀ a ∈ l, f a = g a) : l.flatMap f = l.flatMap g := by
  induction l with
  | nil => rfl
  | cons a l ih =>
      rw [List.flatMap_cons, List.flatMap_cons, h a (by simp), ih (fun b hb => h b (by simp [hb]))]

/-- Raising the threshold only removes pairs from the rainflow pair
list. -/
theorem findrfcPairs_anti (tp : List ℚ) (h1 h2 : ℚ) (hle : h1 ≤ h2) (p : ℕ × ℕ)
    (hp : p ∈ findrfcPairs tp h2) : p ∈ findrfcPairs tp h1 := by
  unfold findrfcPairs findrfcData at hp ⊢
  by_cases hfirst : tp.getD 1 0 < tp.getD 0 0 <;>
      [simp only [if_pos hfirst] at hp ⊢; simp only [if_neg hfirst] at hp ⊢] <;>
    split_ifs at hp ⊢ <;>
    first
      | exact absurd hp (List.not_mem_nil p)
      | (obtain ⟨i, hi, hpi⟩ := List.mem_flatMap.mp hp
         exact List.mem_flatMap.mpr ⟨i, hi, rfcStep_anti _ _ _ _ _ _ hle p hpi⟩)

/-- If the threshold is at most every amplitude present at threshold `0`,
the rainflow pair list is unchanged. -/
theorem findrfcPairs_thresh (tp : List ℚ) (h : ℚ) (h0 : 0 ≤ h)
    (hbig : ∀ p ∈ findrfcPairs tp 0, h ≤ ampl tp p) :
    findrfcPairs tp h = findrfcPairs tp 0 := by
  unfold findrfcPairs findrfcData at hbig ⊢
  by_cases hfirst : tp.getD 1 0 < tp.getD 0 0
  · simp only [if_pos hfirst] at hbig ⊢
    split_ifs with hA hB hC <;> try rfl
    rw [if_neg hA, if_neg hB, if_neg hC] at hbig
    refine flatMapCongr ?_
    intro i hi
    refine rfcStep_thresh _ _ _ _ _ h0 ?_
    intro p hp
    obtain ⟨_, hp1, hp2⟩ := rfcStep_mem (tp.drop 1) 0 le_rfl 1 _ i p hp
    have hmem : p ∈ (List.range ((tp.length - 1) / 2 - 1)).flatMap
        (rfcStep (tp.drop 1) 0 1 ((tp.length - 1) / 2 - 1)) :=
      List.mem_flatMap.mpr ⟨i, hi, hp⟩
    have := hbig p hmem
    rwa [ampl_eq_y tp 1 p hp1 hp2] at this
  · simp only [if_neg hfirst] at hbig ⊢
    split_ifs with hA hB hC <;> try rfl
    rw [if_neg hA, if_neg hB, if_neg hC] at hbig
    refine flatMapCongr ?_
    intro i hi
    refine rfcStep_thresh _ _ _ _ _ h0 ?_
    intro p hp
    obtain ⟨_, hp1, hp2⟩ := rfcStep_mem tp 0 le_rfl 0 _ i p hp
    have hmem : p ∈ (List.range (tp.length / 2 - 1)).flatMap
        (rfcStep tp 0 0 (tp.length / 2 - 1)) :=
      List.mem_flatMap.mpr ⟨i, hi, hp⟩
    have := hbig p hmem
    rw [ampl_eq_y tp 0 p hp1 hp2] at this
    simpa using this

/-- Claim C6 (confirmed): for an alternating turning-point sequence and
thresholds `0 ≤ h1 ≤ h2`, the cycle index set of `findrfc` at `h2` is
contained in the one at `h1`; and for any threshold `0 ≤ h` strictly
below the smallest cycle amplitude found at threshold `0`, `findrfc`
returns exactly the indices it returns at threshold `0`. -/
theorem claim_C6 (tp : List ℚ) (h1 h2 : ℚ) (halt : isAlternating tp = true)
    (h01 : 0 ≤ h1) (hle : h1 ≤ h2) :
    (∀ i ∈ findrfc tp h2, i ∈ findrfc tp h1) ∧
    (∀ h, 0 ≤ h → (∀ p ∈ findrfcPairs tp 0, h < ampl tp p) →
      findrfc tp h = findrfc tp 0) := by
  constructor
  · intro i hi
    unfold findrfc at hi ⊢
    rw [mem_sortAsc] at hi ⊢
    obtain ⟨p, hp, hip⟩ := List.mem_flatMap.mp hi
    exact List.mem_flatMap.mpr ⟨p, findrfcPairs_anti tp h1 h2 hle p hp, hip⟩
  · intro h h0 hbig
    unfold findrfc
    rw [findrfcPairs_thresh tp h h0 (fun p hp => le_of_lt (hbig p hp))]

/-- Witness for C6 at a concrete alternating sequence. -/
theorem claim_C6_witness :
    (∀ i ∈ findrfc [0, 5, 1, 4, 2, 6] 4, i ∈ findrfc [0, 5, 1, 4, 2, 6] 0) ∧
    findrfc [0, 5, 1, 4, 2, 6] 1 = findrfc [0, 5, 1, 4, 2, 6] 0 :=
  ⟨(claim_C6 [0, 5, 1, 4, 2, 6] 0 4 (by with_unfolding_all decide) le_rfl
      (by norm_num)).1,
   (claim_C6 [0, 5, 1, 4, 2, 6] 0 4 (by with_unfolding_all decide) le_rfl
      (by norm_num)).2 1 (by norm_num) (by with_unfolding_all decide)⟩

/-! ## The rainflow filter at `h = 0`, inclusive method: claim C7 -/

/-- `getD` on the left part of an append. -/
theorem getD_append_left {α : Type} (L M : List α) (j : ℕ) (hj : j < L.length) (d : α) :
    (L ++ M).getD j d = L.getD j d := by
  simp [List.getD_eq_getElem?_getD, List.getElem?_append_left hj]

/-- `getLastD` through `map`. -/
theorem getLastD_map (l : List ℕ) (f : ℕ → ℚ) (hl : l ≠ []) (d : ℚ) (d' : ℕ) :
    (l.map f).getLastD d = f (l.getLastD d') := by
  obtain ⟨a, ha⟩ := Option.isSome_iff_exists.mp (List.getLast?_isSome.mpr hl)
  rw [List.getLastD_eq_getLast?, List.getLastD_eq_getLast?, List.getLast?_map, ha]
  rfl

/-- An element of a strictly sorted list is at most its last element. -/
theorem le_getLastD_of_mem : ∀ (l : List ℕ), l.Pairwise (· < ·) → ∀ a ∈ l, a ≤ l.getLastD 0
  | [], _, a, ha => absurd ha (List.not_mem_nil a)
  | [b], _, a, ha => by
      simp only [List.mem_singleton] at ha
      simp [ha]
  | b :: c :: t, hs, a, ha => by
      have hlast : (b :: c :: t).getLastD 0 = (c :: t).getLastD 0 := by
        rw [List.getLastD_eq_getLast?, List.getLastD_eq_getLast?, List.getLast?_cons_cons]
      rw [hlast]
      rcases List.mem_cons.mp ha with rfl | ha'
      · have hbc : a < c := (List.pairwise_cons.mp hs).1 c (by simp)
        have := le_getLastD_of_mem (c :: t) (List.Pairwise.of_cons hs) c (by simp)
        omega
      · exact le_getLastD_of_mem (c :: t) (List.Pairwise.of_cons hs) a ha'

/-- The empty list is a zigzag. -/
theorem zig_nil : Zig [] := ⟨List.chain'_nil, fun i hi => absurd hi (by simp)⟩

/-- A singleton is a zigzag. -/
theorem zig_singleton (a : ℚ) : Zig [a] :=
  ⟨List.chain'_singleton a, fun i hi => absurd hi (by simp)⟩

/-- Two distinct values form a zigzag. -/
theorem zig_pair (a b : ℚ) (h : a ≠ b) : Zig [a, b] := by
  refine ⟨List.chain'_cons.mpr ⟨h, List.chain'_singleton b⟩, fun i hi => absurd hi (by simp)⟩

/-- Dropping the last element of a zigzag leaves a zigzag. -/
theorem zig_prefix (M : List ℚ) (b : ℚ) (hz : Zig (M ++ [b])) : Zig M := by
  obtain ⟨hc, ha⟩ := hz
  refine ⟨(List.chain'_append.mp hc).1, ?_⟩
  intro i hi
  have h0 := ha i (by simp; omega)
  rwa [getD_append_left _ _ i (by omega) 0, getD_append_left _ _ (i + 1) (by omega) 0,
    getD_append_left _ _ (i + 2) (by omega) 0] at h0

/-- Appending a value to a zigzag stays a zigzag when the value differs
from the last element and continues the alternation. -/
theorem zig_snoc (M : List ℚ) (b : ℚ) (hz : Zig M) (hb : M.getLastD 0 ≠ b)
    (halt : 2 ≤ M.length →
      ((M.getD (M.length - 2) 0 < M.getLastD 0) ↔ (b < M.getLastD 0))) :
    Zig (M ++ [b]) := by
  obtain ⟨hc, ha⟩ := hz
  constructor
  · refine List.chain'_append.mpr ⟨hc, List.chain'_singleton b, ?_⟩
    intro u hu v hv
    simp only [List.head?_cons, Option.mem_def, Option.some.injEq] at hv
    subst hv
    have hMne : M ≠ [] := by
      intro he
      rw [he] at hu
      simp at hu
    rw [List.getLastD_eq_getLast?] at hb
    rw [hu] at hb
    simpa using hb
  · intro i hi
    simp only [List.length_append, List.length_singleton] at hi
    by_cases hlt : i + 2 < M.length
    · have h0 := ha i hlt
      rwa [getD_append_left _ _ i (by omega) 0, getD_append_left _ _ (i + 1) (by omega) 0,
        getD_append_left _ _ (i + 2) (by omega) 0]
    · have hieq : i + 2 = M.length := by omega
      have hgb : (M ++ [b]).getD (i + 2) 0 = b := by
        rw [List.getD_eq_getElem?_getD, List.getElem?_append_right (by omega : M.length ≤ i + 2)]
        simp [hieq]
      rw [hgb, getD_append_left _ _ i (by omega) 0, getD_append_left _ _ (i + 1) (by omega) 0]
      have h2 : 2 ≤ M.length := by omega
      have hhalt := halt h2
      rw [getLastD_eq_getD] at hhalt
      have hM1 : i + 1 = M.length - 1 := by omega
      have hM0 : i = M.length - 2 := by omega
      rw [hM1, hM0]
      exact hhalt

/-- On a signal without equal consecutive samples, a run without interior
direction changes is strictly monotone. -/
theorem run_strict (x : List ℚ) (hnp : x.Chain' (· ≠ ·)) (a : ℕ) :
    ∀ b, a < b → b ≤ x.length - 1 →
      (∀ k, a < k → k < b → dirB x k = dirB x a) →
      (dirB x a = true → x.getD a 0 < x.getD b 0) ∧
      (dirB x a = false → x.getD b 0 < x.getD a 0) := by
  intro b
  induction b with
  | zero => omega
  | succ b ih =>
      intro hab hbn hconst
      have hblt : b + 1 < x.length := by omega
      by_cases hab' : a = b
      · subst hab'
        constructor
        · intro hda
          simpa [dirB] using hda
        · intro hda
          have hne := chain'_getD hnp a hblt
          have : ¬ x.getD a 0 < x.getD (a + 1) 0 := by simpa [dirB] using hda
          rcases lt_or_gt_of_ne hne with hlt | hgt
          · exact absurd hlt this
          · exact hgt
      · have hab2 : a < b := by omega
        have ihb := ih hab2 (by omega) (fun k hk1 hk2 => hconst k hk1 (by omega))
        have hdb : dirB x b = dirB x a := hconst b hab2 (by omega)
        have hstep_up : dirB x b = true → x.getD b 0 < x.getD (b + 1) 0 := by
          intro hd
          simpa [dirB] using hd
        have hstep_dn : dirB x b = false → x.getD (b + 1) 0 < x.getD b 0 := by
          intro hd
          have hne := chain'_getD hnp b hblt
          have : ¬ x.getD b 0 < x.getD (b + 1) 0 := by simpa [dirB] using hd
          rcases lt_or_gt_of_ne hne with hlt | hgt
          · exact absurd hlt this
          · exact hgt
        constructor
        · intro hda
          exact lt_trans (ihb.1 hda) (hstep_up (hdb.trans hda))
        · intro hda
          exact lt_trans (hstep_dn (hdb.trans hda)) (ihb.2 hda)

/-- Splitting off the last element of `range' 1 i`. -/
theorem range'_split (i : ℕ) (hi : 1 ≤ i) : List.range' 1 i = List.range' 1 (i - 1) ++ [i] := by
  obtain ⟨m, rfl⟩ : ∃ m, i = m + 1 := ⟨i - 1, by omega⟩
  rw [show m + 1 - 1 = m from rfl, List.range'_1_concat 1 m, Nat.add_comm 1 m]

/-- One more sample extends the direction-change list by at most one
index. -/
theorem extIdxUpTo_succ (x : List ℚ) (i : ℕ) (hi : 1 ≤ i) :
    extIdxUpTo x (i + 1) =
      extIdxUpTo x i ++ (if dirB x (i - 1) != dirB x i then [i] else []) := by
  unfold extIdxUpTo
  rw [show i + 1 - 1 = i from rfl, range'_split i hi, List.filter_append]
  congr 1
  simp [List.filter_singleton]

/-- Peeling the last step off a run of the `rfcfilter` loop. -/
theorem rfRun_succ (m : ℤ) (h : ℚ) (x : List ℚ) (i : ℕ) (hi : 1 ≤ i) :
    rfRun m h x i = rfStep m h x (rfRun m h x (i - 1)) i := by
  unfold rfRun
  obtain ⟨k, rfl⟩ : ∃ k, i = k + 1 := ⟨i - 1, by omega⟩
  rw [List.range'_1_concat, List.foldl_append]
  simp [Nat.add_comm]

/-- With `h = 0` and the inclusive method, from an undecided state a
strictly smaller sample starts a downward direction. -/
theorem rfStep_eval_zero_dn (x : List ℚ) (s : RfState) (ti : ℕ) (hz : s.z0 = 0)
    (hlt : x.getD ti 0 < s.y0) :
    rfStep 1 0 x s ti = ⟨ti, x.getD ti 0, -1, s.ts, s.warned⟩ := by
  obtain ⟨t0, y0, z0, ts, w⟩ := s
  simp only [] at hz hlt
  subst hz
  rw [List.getD_eq_getElem?_getD] at hlt
  simp [rfStep, cmp1, hlt, asymm hlt]

/-- With `h = 0` and the inclusive method, from an undecided state a
strictly larger sample starts an upward direction. -/
theorem rfStep_eval_zero_up (x : List ℚ) (s : RfState) (ti : ℕ) (hz : s.z0 = 0)
    (hlt : s.y0 < x.getD ti 0) :
    rfStep 1 0 x s ti = ⟨ti, x.getD ti 0, 1, s.ts, s.warned⟩ := by
  obtain ⟨t0, y0, z0, ts, w⟩ := s
  simp only [] at hz hlt
  subst hz
  rw [List.getD_eq_getElem?_getD] at hlt
  simp [rfStep, cmp1, hlt, asymm hlt]

/-- With `h = 0` and the inclusive method, from an undecided state an
equal sample leaves the state unchanged. -/
theorem rfStep_eval_zero_eq (x : List ℚ) (s : RfState) (ti : ℕ) (hz : s.z0 = 0)
    (heq : x.getD ti 0 = s.y0) :
    rfStep 1 0 x s ti = ⟨s.t0, s.y0, 0, s.ts, s.warned⟩ := by
  obtain ⟨t0, y0, z0, ts, w⟩ := s
  simp only [] at hz heq
  subst hz
  rw [List.getD_eq_getElem?_getD] at heq
  simp [rfStep, cmp1, heq]

/-- With `h = 0` and the inclusive method, in an upward state a sample at
or above the running maximum keeps going up and replaces the running
maximum. -/
theorem rfStep_eval_up_up (x : List ℚ) (s : RfState) (ti : ℕ) (hz : s.z0 = 1)
    (hle : s.y0 ≤ x.getD ti 0) :
    rfStep 1 0 x s ti = ⟨ti, x.getD ti 0, 1, s.ts, s.warned⟩ := by
  obtain ⟨t0, y0, z0, ts, w⟩ := s
  simp only [] at hz hle
  subst hz
  rw [List.getD_eq_getElem?_getD] at hle
  simp [rfStep, rfCondDown, rfCondUp, cmp1, cmp2, hle, not_lt.mpr hle]

/-- With `h = 0` and the inclusive method, in an upward state a strictly
smaller sample flips the direction and commits the running maximum index
to the output. -/
theorem rfStep_eval_up_dn (x : List ℚ) (s : RfState) (ti : ℕ) (hz : s.z0 = 1)
    (hlt : x.getD ti 0 < s.y0) :
    rfStep 1 0 x s ti = ⟨ti, x.getD ti 0, -1, s.ts ++ [s.t0], s.warned⟩ := by
  obtain ⟨t0, y0, z0, ts, w⟩ := s
  simp only [] at hz hlt
  subst hz
  rw [List.getD_eq_getElem?_getD] at hlt
  simp [rfStep, rfCondDown, rfCondUp, cmp1, cmp2, hlt]

/-- With `h = 0` and the inclusive method, in a downward state a sample at
or below the running minimum keeps going down and replaces the running
minimum. -/
theorem rfStep_eval_dn_dn (x : List ℚ) (s : RfState) (ti : ℕ) (hz : s.z0 = -1)
    (hle : x.getD ti 0 ≤ s.y0) :
    rfStep 1 0 x s ti = ⟨ti, x.getD ti 0, -1, s.ts, s.warned⟩ := by
  obtain ⟨t0, y0, z0, ts, w⟩ := s
  simp only [] at hz hle
  subst hz
  rw [List.getD_eq_getElem?_getD] at hle
  simp [rfStep, rfCondDown, rfCondUp, cmp1, cmp2, hle, not_lt.mpr hle]

/-- With `h = 0` and the inclusive method, in a downward state a strictly
larger sample flips the direction and commits the running minimum index to
the output. -/
theorem rfStep_eval_dn_up (x : List ℚ) (s : RfState) (ti : ℕ) (hz : s.z0 = -1)
    (hlt : s.y0 < x.getD ti 0) :
    rfStep 1 0 x s ti = ⟨ti, x.getD ti 0, 1, s.ts ++ [s.t0], s.warned⟩ := by
  obtain ⟨t0, y0, z0, ts, w⟩ := s
  simp only [] at hz hlt
  subst hz
  rw [List.getD_eq_getElem?_getD] at hlt
  simp [rfStep, rfCondDown, rfCondUp, cmp1, cmp2, hlt, not_lt.mpr (le_of_lt hlt),
    not_le.mpr hlt]

/-- The machine-run formula for the `rfcfilter` loop at `h = 0` with the
inclusive method on a signal without equal consecutive samples: after
processing samples `1 .. i` the retained index is `i`, the retained value
is `x[i]`, the direction flag is the sign of the last step, and the
committed indices are `0` followed by the direction-change indices among
`1 .. i - 1`. -/
theorem rfRun_formula (x : List ℚ) (hx : x.Chain' (· ≠ ·)) :
    ∀ i, 1 ≤ i → i < x.length →
      rfRun 1 0 x i = ⟨i, x.getD i 0, zsign x i, 0 :: extIdxUpTo x i, false⟩ := by
  intro i
  induction i with
  | zero => omega
  | succ k ih =>
      intro h1 hk
      by_cases hk0 : k = 0
      · subst hk0
        have h2 : rfRun 1 0 x 1 = rfStep 1 0 x ⟨0, x.getD 0 0, 0, [0], false⟩ 1 := by
          simp [rfRun, List.range'_one]
        rw [h2]
        have hne : x.getD 0 0 ≠ x.getD 1 0 := chain'_getD hx 0 hk
        rcases lt_or_gt_of_ne hne with hlt | hgt
        · rw [rfStep_eval_zero_up x _ 1 rfl hlt]
          have hd : dirB x 0 = true := by simpa [dirB] using hlt
          have hz : zsign x 1 = 1 := by simp [zsign, hd]
          rw [hz]
          rfl
        · rw [rfStep_eval_zero_dn x _ 1 rfl hgt]
          have hd : dirB x 0 = false := by simpa [dirB, not_lt] using le_of_lt hgt
          have hz : zsign x 1 = -1 := by simp [zsign, hd]
          rw [hz]
          rfl
      · have hk1 : 1 ≤ k := by omega
        rw [rfRun_succ 1 0 x (k + 1) (by omega), Nat.add_sub_cancel, ih hk1 (by omega)]
        have hne : x.getD k 0 ≠ x.getD (k + 1) 0 := chain'_getD hx k hk
        cases hdprev : dirB x (k - 1) with
        | true =>
            have hz : zsign x k = 1 := by simp [zsign, hdprev]
            rcases lt_or_gt_of_ne hne with hlt | hgt
            · rw [rfStep_eval_up_up x (⟨k, x.getD k 0, zsign x k, 0 :: extIdxUpTo x k, false⟩ : RfState) (k + 1) hz (le_of_lt hlt)]
              have hdk : dirB x k = true := by simpa [dirB] using hlt
              have hz2 : zsign x (k + 1) = 1 := by simp [zsign, hdk]
              have hext : extIdxUpTo x (k + 1) = extIdxUpTo x k := by
                rw [extIdxUpTo_succ x k hk1, hdprev, hdk]
                simp
              rw [hz2, hext]
            · rw [rfStep_eval_up_dn x (⟨k, x.getD k 0, zsign x k, 0 :: extIdxUpTo x k, false⟩ : RfState) (k + 1) hz hgt]
              have hdk : dirB x k = false := by
                simpa [dirB, not_lt] using le_of_lt hgt
              have hz2 : zsign x (k + 1) = -1 := by simp [zsign, hdk]
              have hext : extIdxUpTo x (k + 1) = extIdxUpTo x k ++ [k] := by
                rw [extIdxUpTo_succ x k hk1, hdprev, hdk]
                simp
              rw [hz2, hext]
              simp
        | false =>
            have hz : zsign x k = -1 := by simp [zsign, hdprev]
            rcases lt_or_gt_of_ne hne with hlt | hgt
            · rw [rfStep_eval_dn_up x (⟨k, x.getD k 0, zsign x k, 0 :: extIdxUpTo x k, false⟩ : RfState) (k + 1) hz hlt]
              have hdk : dirB x k = true := by simpa [dirB] using hlt
              have hz2 : zsign x (k + 1) = 1 := by simp [zsign, hdk]
              have hext : extIdxUpTo x (k + 1) = extIdxUpTo x k ++ [k] := by
                rw [extIdxUpTo_succ x k hk1, hdprev, hdk]
                simp
              rw [hz2, hext]
              simp
            · rw [rfStep_eval_dn_dn x (⟨k, x.getD k 0, zsign x k, 0 :: extIdxUpTo x k, false⟩ : RfState) (k + 1) hz (le_of_lt hgt)]
              have hdk : dirB x k = false := by
                simpa [dirB, not_lt] using le_of_lt hgt
              have hz2 : zsign x (k + 1) = -1 := by simp [zsign, hdk]
              have hext : extIdxUpTo x (k + 1) = extIdxUpTo x k := by
                rw [extIdxUpTo_succ x k hk1, hdprev, hdk]
                simp
              rw [hz2, hext]

/-- The direction-change list over the whole loop range is `extIdx`. -/
theorem extIdxUpTo_full (x : List ℚ) : extIdxUpTo x (x.length - 1) = extIdx x := by
  unfold extIdxUpTo extIdx
  rw [Nat.sub_sub]

/-- The last element of a nonempty list is a member. -/
theorem getLastD_mem (l : List ℕ) (hl : l ≠ []) (d : ℕ) : l.getLastD d ∈ l := by
  rw [List.getLastD_eq_getLast?, List.getLast?_eq_getLast l hl, Option.getD_some]
  exact List.getLast_mem hl

/-- If the step direction never changes on an interval, it is constant
there. -/
theorem dirB_const (x : List ℚ) (a b : ℕ)
    (hnc : ∀ k, a < k → k < b → dirB x (k - 1) = dirB x k) :
    ∀ k, a ≤ k → k < b → dirB x k = dirB x a := by
  intro k
  induction k with
  | zero =>
      intro h1 _
      have h0 : a = 0 := by omega
      rw [h0]
  | succ k ih =>
      intro h1 h2
      rcases Nat.eq_or_lt_of_le h1 with he | hlt
      · rw [he]
      · have hstep := hnc (k + 1) (by omega) h2
        rw [Nat.add_sub_cancel] at hstep
        rw [← hstep]
        exact ih (by omega) (by omega)

/-- Members of `extIdx` are interior indices. -/
theorem extIdx_mem_bounds (x : List ℚ) (k : ℕ) (hk : k ∈ extIdx x) :
    1 ≤ k ∧ k < x.length - 1 := by
  unfold extIdx at hk
  have h1 := (List.mem_filter.mp hk).1
  rw [List.mem_range'_1] at h1
  omega

/-- `extIdx` is strictly increasing. -/
theorem extIdx_sorted (x : List ℚ) : (extIdx x).Pairwise (· < ·) := by
  unfold extIdx
  exact List.Pairwise.sublist (List.filter_sublist _) (List.pairwise_lt_range' 1 _)

/-- On a signal without equal consecutive samples, the value at the last
retained index before the tail test differs from the final sample, so the
tail test of `rfcfilter` always fires. -/
theorem rfc_last_ne (x : List ℚ) (hx : x.Chain' (· ≠ ·)) (hn : 2 ≤ x.length) :
    x.getD ((0 :: extIdx x).getLastD 0) 0 ≠ x.getD (x.length - 1) 0 := by
  have hcons : (0 :: extIdx x).getLastD 0 = (extIdx x).getLastD 0 := by
    rw [List.getLastD_cons]
  rw [hcons]
  have hmain : (extIdx x).getLastD 0 < x.length - 1 ∧
      (∀ k, (extIdx x).getLastD 0 < k → k < x.length - 1 →
        dirB x (k - 1) = dirB x k) := by
    rcases eq_or_ne (extIdx x) [] with hE | hE
    · rw [hE]
      simp only [List.getLastD_nil]
      constructor
      · omega
      · intro k hk1 hk2
        have hkmem : k ∈ List.range' 1 (x.length - 2) :=
          List.mem_range'_1.mpr ⟨by omega, by omega⟩
        unfold extIdx at hE
        have h2 := List.filter_eq_nil_iff.mp hE k hkmem
        simpa using h2
    · have hmem : (extIdx x).getLastD 0 ∈ extIdx x := getLastD_mem _ hE 0
      have hb := extIdx_mem_bounds x _ hmem
      refine ⟨hb.2, ?_⟩
      intro k hk1 hk2
      have hkmem : k ∈ List.range' 1 (x.length - 2) :=
        List.mem_range'_1.mpr ⟨by omega, by omega⟩
      by_cases hp : (dirB x (k - 1) != dirB x k) = true
      · have hkE : k ∈ extIdx x := by
          unfold extIdx
          exact List.mem_filter.mpr ⟨hkmem, hp⟩
        have := le_getLastD_of_mem (extIdx x) (extIdx_sorted x) k hkE
        omega
      · simpa using hp
  have hconst := dirB_const x ((extIdx x).getLastD 0) (x.length - 1) hmain.2
  have hrs := run_strict x hx ((extIdx x).getLastD 0) (x.length - 1) hmain.1 (le_refl _)
      (fun k hk1 hk2 => hconst k (le_of_lt hk1) hk2)
  cases hde : dirB x ((extIdx x).getLastD 0) with
  | true => exact ne_of_lt (hrs.1 hde)
  | false => exact ne_of_gt (hrs.2 hde)

/-- Evaluating `rfcfilterT` from a computed run state. -/
theorem rfcfilterT_eval (x : List ℚ) (h : ℚ) (m : ℤ) (t0 : ℕ) (y0 : ℚ) (z0 : ℤ)
    (ts : List ℕ) (w : Bool)
    (hrun : rfRun m h x (x.length - 1) = ⟨t0, y0, z0, ts, w⟩) :
    rfcfilterT x h m =
      if cmp1 m h |y0 - x.getD (ts.getLastD 0) 0| then ts ++ [t0] else ts := by
  simp only [rfcfilterT, hrun]

/-- The rainflow filter at `h = 0` with the inclusive method on a signal
without equal consecutive samples retains index `0`, every interior
direction change, and the final index. -/
theorem rfcfilterT_noPlateau (x : List ℚ) (hx : x.Chain' (· ≠ ·)) (hn : 2 ≤ x.length) :
    rfcfilterT x 0 1 = 0 :: (extIdx x ++ [x.length - 1]) := by
  have hrun := rfRun_formula x hx (x.length - 1) (by omega) (by omega)
  rw [extIdxUpTo_full] at hrun
  rw [rfcfilterT_eval x 0 1 _ _ _ _ _ hrun]
  have htest :
      cmp1 1 0 |x.getD (x.length - 1) 0 - x.getD ((0 :: extIdx x).getLastD 0) 0| = true := by
    have hne := rfc_last_ne x hx hn
    simp only [cmp1, if_neg (by norm_num : ¬ (1 : ℤ) = 0), decide_eq_true_eq]
    rw [abs_pos, sub_ne_zero]
    exact Ne.symm hne
  rw [if_pos htest]
  simp

/-- `diff` shortens the signal by one sample. -/
theorem length_diffq (x : List ℚ) : (diffq x).length = x.length - 1 := by
  simp [diffq, List.length_zipWith, List.length_tail]

/-- `signq` of a non-zero rational is non-zero. -/
theorem signq_ne_zero (a : ℚ) (ha : a ≠ 0) : signq a ≠ 0 := by
  rcases lt_or_gt_of_ne ha with h | h
  · simp [signq, h]
  · simp [signq, h, asymm h]

/-- The product of the signs of two non-zero steps is negative exactly
when the steps have opposite directions. -/
theorem signq_mul_neg (a b : ℚ) (ha : a ≠ 0) (hb : b ≠ 0) :
    decide (signq a * signq b < 0) = (decide (0 < a) != decide (0 < b)) := by
  rcases lt_or_gt_of_ne ha with h1 | h1 <;> rcases lt_or_gt_of_ne hb with h2 | h2 <;>
    simp [signq, h1, h2, asymm h1, asymm h2]

/-- Reading a list back through `getD` over its index range. -/
theorem map_getD_range (l : List ℚ) :
    (List.range l.length).map (fun i => l.getD i 0) = l := by
  apply List.ext_getElem
  · simp
  · intro i h1 h2
    rw [List.getElem_map, List.getElem_range]
    exact getD_of_lt l i h2 0

/-- On a signal without equal consecutive samples, `findextrema` returns
exactly the strict-direction-change indices. -/
theorem findextrema_noPlateau (x : List ℚ) (hx : x.Chain' (· ≠ ·)) :
    findextrema x = extIdx x := by
  unfold findextrema findcrossList
  set s : List ℤ := (diffq x).map (fun xi => signq (xi - 0)) with hs
  have hlen : s.length = x.length - 1 := by
    rw [hs, List.length_map, length_diffq]
  have hnz : ∀ j, j < s.length → s.getD j 0 ≠ 0 := by
    intro j hj
    have hj2 : j < (diffq x).length := by
      rw [hs, List.length_map] at hj
      exact hj
    rw [hs, getD_signVec _ _ j hj2, sub_zero,
      getD_diffq x j (by rw [length_diffq] at hj2; omega)]
    exact signq_ne_zero _ (sub_ne_zero.mpr
      (Ne.symm (chain'_getD hx j (by rw [length_diffq] at hj2; omega))))
  have hfs : findcrossSigns s = crossIdx s := by
    unfold findcrossSigns
    rw [zeroFold_of_no_zero s hnz]
    rcases eq_or_ne s [] with he | he
    · simp [he]
    · have hcond : ¬ (s ≠ [] ∧ s.all (fun a => a == 0) = true) := by
        rintro ⟨-, hall⟩
        have h0 : s.getD 0 0 ≠ 0 := hnz 0 (List.length_pos.mpr he)
        have hmem : s.getD 0 0 ∈ s := by
          rw [getD_of_lt s 0 (List.length_pos.mpr he) 0]
          exact List.getElem_mem _
        have h1 := List.all_eq_true.mp hall _ hmem
        simp at h1
        rw [List.getD_eq_getElem?_getD] at h0
        exact h0 h1
      rw [if_neg hcond]
  rw [hfs]
  unfold crossIdx extIdx
  rw [hlen, Nat.sub_sub, show x.length - (1 + 1) = x.length - 2 from rfl]
  rw [List.range'_eq_map_range, List.filter_map]
  have hfeq : ∀ i ∈ List.range (x.length - 2),
      (decide (s.getD i 0 * s.getD (i + 1) 0 < 0)) =
        ((fun k => dirB x (k - 1) != dirB x k) ∘ (fun i => 1 + i)) i := by
    intro i hi
    have him : i < x.length - 2 := List.mem_range.mp hi
    simp only [Function.comp_apply]
    rw [show 1 + i - 1 = i from by omega, show 1 + i = i + 1 from by omega]
    have hs1 : s.getD i 0 = signq (x.getD (i + 1) 0 - x.getD i 0) := by
      rw [hs, getD_signVec _ _ i (by rw [length_diffq]; omega), sub_zero,
        getD_diffq x i (by omega)]
    have hs2 : s.getD (i + 1) 0 = signq (x.getD (i + 2) 0 - x.getD (i + 1) 0) := by
      rw [hs, getD_signVec _ _ (i + 1) (by rw [length_diffq]; omega), sub_zero,
        getD_diffq x (i + 1) (by omega)]
    rw [hs1, hs2, signq_mul_neg _ _
        (sub_ne_zero.mpr (Ne.symm (chain'_getD hx i (by omega))))
        (sub_ne_zero.mpr (Ne.symm (chain'_getD hx (i + 1) (by omega))))]
    unfold dirB
    rw [decide_eq_decide.mpr sub_pos, decide_eq_decide.mpr sub_pos]
  have hfilter : (List.range (x.length - 2)).filter
      (fun i => decide (s.getD i 0 * s.getD (i + 1) 0 < 0)) =
      (List.range (x.length - 2)).filter
        ((fun k => dirB x (k - 1) != dirB x k) ∘ (fun i => 1 + i)) :=
    List.filter_congr hfeq
  rw [hfilter]
  exact List.map_congr_left (fun a _ => by omega)

/-- The element before a snoc-ed last element. -/
theorem getD_penult (T : List ℚ) (b : ℚ) (hT : T ≠ []) :
    (T ++ [b]).getD ((T ++ [b]).length - 2) 0 = T.getLastD 0 := by
  have hl : 1 ≤ T.length := List.length_pos.mpr hT
  rw [List.length_append, List.length_singleton,
    show T.length + 1 - 2 = T.length - 1 from by omega,
    getD_append_left _ _ _ (by omega) 0, getLastD_eq_getD]

/-- In a zigzag ending at `y0`, the comparison of the two entries before
`y0` mirrors the comparison of `y0` with the entry before it. -/
theorem zig_last_iff (T : List ℚ) (y0 : ℚ) (hz : Zig (T ++ [y0])) (h2 : 2 ≤ T.length) :
    ((T.getD (T.length - 2) 0 < T.getLastD 0) ↔ (y0 < T.getLastD 0)) := by
  have halt := hz.2 (T.length - 2) (by simp; omega)
  rw [show T.length - 2 + 1 = T.length - 1 from by omega,
      show T.length - 2 + 2 = T.length from by omega,
      getD_append_left _ _ _ (by omega) 0, getD_append_left _ _ _ (by omega) 0] at halt
  have hTl : (T ++ [y0]).getD T.length 0 = y0 := by
    rw [List.getD_eq_getElem?_getD, List.getElem?_append_right (le_refl _)]
    simp
  rw [hTl] at halt
  rw [getLastD_eq_getD]
  exact halt

/-- A zigzag never ends with a repeated value. -/
theorem zig_append_last_ne (T : List ℚ) (y0 : ℚ) (hT : T ≠ []) (hz : Zig (T ++ [y0])) :
    T.getLastD 0 ≠ y0 := by
  have hl : 1 ≤ T.length := List.length_pos.mpr hT
  have hc := chain'_getD hz.1 (T.length - 1) (by simp; omega)
  rw [show T.length - 1 + 1 = T.length from by omega,
    getD_append_left _ _ _ (by omega) 0] at hc
  have hTl : (T ++ [y0]).getD T.length 0 = y0 := by
    rw [List.getD_eq_getElem?_getD, List.getElem?_append_right (le_refl _)]
    simp
  rw [hTl] at hc
  rw [getLastD_eq_getD]
  exact hc

/-- Replacing the last element of a zigzag by another value on the same
side of the previous element keeps it a zigzag. -/
theorem zig_replace_last (T : List ℚ) (y0 yi : ℚ) (hT : T ≠ []) (hz : Zig (T ++ [y0]))
    (hside : (T.getLastD 0 < y0 ↔ T.getLastD 0 < yi)) (hne : T.getLastD 0 ≠ yi) :
    Zig (T ++ [yi]) := by
  have hzT : Zig T := zig_prefix T y0 hz
  apply zig_snoc T yi hzT hne
  intro h2
  have h1 := zig_last_iff T y0 hz h2
  have hny0 : T.getLastD 0 ≠ y0 := zig_append_last_ne T y0 hT hz
  rcases lt_trichotomy (T.getLastD 0) y0 with ha | ha | ha
  · exact iff_of_false (fun hc => absurd (h1.mp hc) (asymm ha)) (asymm (hside.mp ha))
  · exact absurd ha hny0
  · have hb : ¬ T.getLastD 0 < yi := fun hc => absurd (hside.mpr hc) (asymm ha)
    have hyi : yi < T.getLastD 0 := (lt_or_gt_of_ne (Ne.symm hne)).resolve_right hb
    exact iff_of_true (h1.mpr ha) hyi

/-- Appending a value beyond the last element of a zigzag in the reversed
direction keeps it a zigzag. -/
theorem zig_snoc_flip (T : List ℚ) (y0 yi : ℚ) (hT : T ≠ []) (hz : Zig (T ++ [y0]))
    (hside : (T.getLastD 0 < y0 ∧ yi < y0) ∨ (y0 < T.getLastD 0 ∧ y0 < yi)) :
    Zig ((T ++ [y0]) ++ [yi]) := by
  apply zig_snoc (T ++ [y0]) yi hz
  · rw [List.getLastD_concat]
    rcases hside with ⟨-, h⟩ | ⟨-, h⟩
    · exact ne_of_gt h
    · exact ne_of_lt h
  · intro h2
    rw [List.getLastD_concat, getD_penult T y0 hT]
    rcases hside with ⟨h1, h⟩ | ⟨h1, h⟩
    · exact iff_of_true h1 h
    · exact iff_of_false (asymm h1) (asymm h)

/-- Packaging of the `rfcfilter` zigzag invariant for a literal state. -/
theorem zinv_mk (x : List ℚ) (t0 : ℕ) (y0 : ℚ) (z0 : ℤ) (ts : List ℕ) (w : Bool)
    (h1 : ts ≠ []) (h2 : y0 = x.getD t0 0)
    (h3 : z0 = 0 ∧ ts = [0] ∧ t0 = 0 ∧ y0 = x.getD 0 0 ∨
      (z0 = 1 ∨ z0 = -1) ∧ Zig ((ts.map (fun i => x.getD i 0)) ++ [y0]) ∧
      (z0 = 1 → (ts.map (fun i => x.getD i 0)).getLastD 0 < y0) ∧
      (z0 = -1 → y0 < (ts.map (fun i => x.getD i 0)).getLastD 0)) :
    ZInv x ⟨t0, y0, z0, ts, w⟩ := ⟨h1, h2, h3⟩

/-- The initial state of the `rfcfilter` loop satisfies the zigzag
invariant. -/
theorem zinv_init (x : List ℚ) : ZInv x ⟨0, x.getD 0 0, 0, [0], false⟩ :=
  zinv_mk x 0 (x.getD 0 0) 0 [0] false (by simp) rfl (Or.inl ⟨rfl, rfl, rfl, rfl⟩)

/-- One step of the `rfcfilter` loop at `h = 0` with the inclusive method
preserves the zigzag invariant, on an arbitrary signal. -/
theorem rfStep_zinv (x : List ℚ) (s : RfState) (ti : ℕ) (hs : ZInv x s) :
    ZInv x (rfStep 1 0 x s ti) := by
  obtain ⟨t0, y0, z0, ts, w⟩ := s
  obtain ⟨hts, hy0, hdisj⟩ := hs
  simp only [] at hts hy0 hdisj
  rcases hdisj with ⟨hz0, htseq, ht0, hy00⟩ | ⟨hz1, hzig, hup, hdn⟩
  · rcases lt_trichotomy (x.getD ti 0) y0 with hlt | heq | hgt
    · rw [rfStep_eval_zero_dn x ⟨t0, y0, z0, ts, w⟩ ti hz0 hlt]
      apply zinv_mk
      · exact hts
      · rfl
      · refine Or.inr ⟨Or.inr rfl, ?_, ?_, ?_⟩
        · rw [htseq]
          simp only [List.map_cons, List.map_nil]
          refine zig_pair _ _ ?_
          rw [← hy00]
          exact ne_of_gt hlt
        · intro h0; exact absurd h0 (by decide)
        · intro _
          rw [htseq]
          simp only [List.map_cons, List.map_nil, List.getLastD_cons, List.getLastD_nil]
          rw [← hy00]
          exact hlt
    · rw [rfStep_eval_zero_eq x ⟨t0, y0, z0, ts, w⟩ ti hz0 heq]
      exact zinv_mk x t0 y0 0 ts w hts hy0 (Or.inl ⟨rfl, htseq, ht0, hy00⟩)
    · rw [rfStep_eval_zero_up x ⟨t0, y0, z0, ts, w⟩ ti hz0 hgt]
      apply zinv_mk
      · exact hts
      · rfl
      · refine Or.inr ⟨Or.inl rfl, ?_, ?_, ?_⟩
        · rw [htseq]
          simp only [List.map_cons, List.map_nil]
          refine zig_pair _ _ ?_
          rw [← hy00]
          exact ne_of_lt hgt
        · intro _
          rw [htseq]
          simp only [List.map_cons, List.map_nil, List.getLastD_cons, List.getLastD_nil]
          rw [← hy00]
          exact hgt
        · intro h0; exact absurd h0 (by decide)
  · have hTne : ts.map (fun i => x.getD i 0) ≠ [] := by simpa using hts
    have hmap : (ts ++ [t0]).map (fun i => x.getD i 0) =
        ts.map (fun i => x.getD i 0) ++ [y0] := by
      rw [List.map_append]
      simp only [List.map_cons, List.map_nil]
      rw [← hy0]
    rcases hz1 with hz1 | hz1
    · have hL := hup hz1
      rcases le_or_lt y0 (x.getD ti 0) with hle | hlt
      · rw [rfStep_eval_up_up x ⟨t0, y0, z0, ts, w⟩ ti hz1 hle]
        apply zinv_mk
        · exact hts
        · rfl
        · refine Or.inr ⟨Or.inl rfl, ?_, ?_, ?_⟩
          · exact zig_replace_last _ y0 _ hTne hzig
              (iff_of_true hL (lt_of_lt_of_le hL hle)) (ne_of_lt (lt_of_lt_of_le hL hle))
          · intro _
            exact lt_of_lt_of_le hL hle
          · intro h0; exact absurd h0 (by decide)
      · rw [rfStep_eval_up_dn x ⟨t0, y0, z0, ts, w⟩ ti hz1 hlt]
        apply zinv_mk
        · simp
        · rfl
        · refine Or.inr ⟨Or.inr rfl, ?_, ?_, ?_⟩
          · rw [hmap]
            exact zig_snoc_flip _ y0 _ hTne hzig (Or.inl ⟨hL, hlt⟩)
          · intro h0; exact absurd h0 (by decide)
          · intro _
            rw [hmap, List.getLastD_concat]
            exact hlt
    · have hL := hdn hz1
      rcases le_or_lt (x.getD ti 0) y0 with hle | hlt
      · rw [rfStep_eval_dn_dn x ⟨t0, y0, z0, ts, w⟩ ti hz1 hle]
        apply zinv_mk
        · exact hts
        · rfl
        · refine Or.inr ⟨Or.inr rfl, ?_, ?_, ?_⟩
          · exact zig_replace_last _ y0 _ hTne hzig
              (iff_of_false (asymm hL) (not_lt.mpr (le_of_lt (lt_of_le_of_lt hle hL))))
              (ne_of_gt (lt_of_le_of_lt hle hL))
          · intro h0; exact absurd h0 (by decide)
          · intro _
            exact lt_of_le_of_lt hle hL
      · rw [rfStep_eval_dn_up x ⟨t0, y0, z0, ts, w⟩ ti hz1 hlt]
        apply zinv_mk
        · simp
        · rfl
        · refine Or.inr ⟨Or.inl rfl, ?_, ?_, ?_⟩
          · rw [hmap]
            exact zig_snoc_flip _ y0 _ hTne hzig (Or.inr ⟨hL, hlt⟩)
          · intro _
            rw [hmap, List.getLastD_concat]
            exact hlt
          · intro h0; exact absurd h0 (by decide)

/-- Every run of the `rfcfilter` loop at `h = 0` with the inclusive
method satisfies the zigzag invariant. -/
theorem rfRun_zinv (x : List ℚ) (i : ℕ) : ZInv x (rfRun 1 0 x i) := by
  induction i with
  | zero => exact zinv_init x
  | succ k ih =>
      rw [rfRun_succ 1 0 x (k + 1) (by omega), Nat.add_sub_cancel]
      exact rfStep_zinv x _ (k + 1) ih

/-- The output of `rfcfilter` at `h = 0` with the inclusive method is a
nonempty strict zigzag, whatever the input signal. -/
theorem rfcfilter_zig (x : List ℚ) :
    Zig (rfcfilter x 0 1) ∧ rfcfilter x 0 1 ≠ [] := by
  rcases hrun : rfRun 1 0 x (x.length - 1) with ⟨t0, y0, z0, ts, w⟩
  have hz := rfRun_zinv x (x.length - 1)
  rw [hrun] at hz
  obtain ⟨hts, hy0, hdisj⟩ := hz
  simp only [] at hts hy0 hdisj
  unfold rfcfilter
  rw [rfcfilterT_eval x 0 1 _ _ _ _ _ hrun]
  by_cases hc : cmp1 1 0 |y0 - x.getD (ts.getLastD 0) 0| = true
  · rw [if_pos hc]
    rcases hdisj with ⟨hz0, htseq, ht0, hy00⟩ | ⟨hz1, hzig, hup, hdn⟩
    · exfalso
      rw [htseq] at hc
      simp only [List.getLastD_cons, List.getLastD_nil] at hc
      rw [hy00] at hc
      simp [cmp1] at hc
    · constructor
      · rw [List.map_append]
        simp only [List.map_cons, List.map_nil]
        rw [← hy0]
        exact hzig
      · simp
  · rw [if_neg hc]
    constructor
    · rcases hdisj with ⟨hz0, htseq, ht0, hy00⟩ | ⟨hz1, hzig, hup, hdn⟩
      · rw [htseq]
        simp only [List.map_cons, List.map_nil]
        exact zig_singleton _
      · exact zig_prefix _ y0 hzig
    · simpa using hts

/-- `range n` split as first index, interior, last index. -/
theorem range_decomp (n : ℕ) (hn : 2 ≤ n) :
    List.range n = 0 :: (List.range' 1 (n - 2) ++ [n - 1]) := by
  obtain ⟨m, rfl⟩ : ∃ m, n = m + 2 := ⟨n - 2, by omega⟩
  rw [List.range_eq_range',
    show m + 2 - 2 = m from by omega, show m + 2 - 1 = m + 1 from by omega]
  show List.range' 0 (m + 1 + 1) = 0 :: (List.range' 1 m ++ [m + 1])
  rw [List.range'_succ]
  congr 1
  · rw [Nat.zero_add, range'_split (m + 1) (by omega), Nat.add_sub_cancel]

/-- A nonempty strict zigzag is a fixed point of the rainflow filter at
`h = 0` with the inclusive method. -/
theorem zig_fixed (l : List ℚ) (hz : Zig l) (hne : l ≠ []) :
    rfcfilter l 0 1 = l := by
  by_cases h1 : l.length ≤ 1
  · obtain ⟨a, rfl⟩ : ∃ a, l = [a] := by
      cases l with
      | nil => exact absurd rfl hne
      | cons a t =>
          cases t with
          | nil => exact ⟨a, rfl⟩
          | cons b t2 => simp at h1
    unfold rfcfilter
    rw [rfcfilterT_eval [a] 0 1 0 a 0 [0] false rfl]
    have hcf : cmp1 1 0 |a - ([a] : List ℚ).getD (([0] : List ℕ).getLastD 0) 0| = false := by
      simp [cmp1]
    have hcf2 : ¬ (cmp1 1 0 |a - ([a] : List ℚ).getD (([0] : List ℕ).getLastD 0) 0| = true) := by
      rw [hcf]
      simp
    rw [if_neg hcf2]
    simp
  · push_neg at h1
    have hchain : l.Chain' (· ≠ ·) := hz.1
    have h2 : 2 ≤ l.length := h1
    unfold rfcfilter
    rw [rfcfilterT_noPlateau l hchain h2]
    have hext : extIdx l = List.range' 1 (l.length - 2) := by
      unfold extIdx
      apply List.filter_eq_self.mpr
      intro k hk
      rw [List.mem_range'_1] at hk
      have hk1 : 1 ≤ k := hk.1
      have hk2 : k < l.length - 1 := by omega
      have halt := hz.2 (k - 1) (by omega)
      rw [show k - 1 + 1 = k from by omega, show k - 1 + 2 = k + 1 from by omega] at halt
      have hne2 := chain'_getD hchain k (by omega)
      rw [bne_iff_ne]
      unfold dirB
      intro hEq
      rw [decide_eq_decide, show k - 1 + 1 = k from by omega] at hEq
      rcases lt_trichotomy (l.getD k 0) (l.getD (k + 1) 0) with hlt | heq | hgt
      · exact absurd (halt.mp (hEq.mpr hlt)) (asymm hlt)
      · exact hne2 heq
      · exact absurd (hEq.mp (halt.mpr hgt)) (asymm hgt)
    rw [hext, ← range_decomp l.length h2]
    exact map_getD_range l

/-- Claim C7, amended: on a signal without equal consecutive samples whose
turning-point extraction succeeds, `rfcfilter` at `h = 0` with the
inclusive method returns exactly the turning points when the turning-point
list opens with index `0` (first extremum a maximum); when the first
extremum is a minimum the filter output is the first sample followed by
the turning points; and the filter at `h = 0` with the inclusive method is
idempotent on every signal. -/
theorem claim_C7_amended (x : List ℚ) (hx : x.Chain' (· ≠ ·)) (tp : List ℕ)
    (htp : findtp x 0 none = some tp) :
    (tp.headD 1 = 0 → rfcfilterT x 0 1 = tp) ∧
    (tp.headD 1 ≠ 0 → rfcfilterT x 0 1 = 0 :: tp) ∧
    (∀ y : List ℚ, rfcfilter (rfcfilter y 0 1) 0 1 = rfcfilter y 0 1) := by
  have hidem : ∀ y : List ℚ, rfcfilter (rfcfilter y 0 1) 0 1 = rfcfilter y 0 1 :=
    fun y => zig_fixed _ (rfcfilter_zig y).1 (rfcfilter_zig y).2
  simp only [findtp, lt_self_iff_false, reduceCtorEq, or_self, if_false] at htp
  by_cases hlen : (findextrema x).length < 2
  · rw [if_pos hlen] at htp
    exact absurd htp (by simp)
  · rw [if_neg hlen] at htp
    have htp2 := Option.some.inj htp
    rw [findextrema_noPlateau x hx] at htp2 hlen
    push_neg at hlen
    have hEne : extIdx x ≠ [] := by
      intro h0
      rw [h0] at hlen
      simp at hlen
    have hxlen : 2 ≤ x.length := by
      obtain ⟨e, he⟩ := List.exists_mem_of_ne_nil _ hEne
      have hb := extIdx_mem_bounds x e he
      omega
    have hT := rfcfilterT_noPlateau x hx hxlen
    refine ⟨?_, ?_, hidem⟩
    · intro hhead
      by_cases hmax : x.getD ((extIdx x).getD 1 0) 0 < x.getD ((extIdx x).headD 0) 0
      · rw [if_pos hmax] at htp2
        rw [hT]
        exact htp2
      · rw [if_neg hmax] at htp2
        exfalso
        obtain ⟨a, E2, hE2⟩ := List.exists_cons_of_ne_nil hEne
        rw [← htp2, hE2] at hhead
        simp at hhead
        have hmem : a ∈ extIdx x := by
          rw [hE2]
          simp
        have hb := extIdx_mem_bounds x a hmem
        omega
    · intro hhead
      by_cases hmax : x.getD ((extIdx x).getD 1 0) 0 < x.getD ((extIdx x).headD 0) 0
      · rw [if_pos hmax] at htp2
        exfalso
        rw [← htp2] at hhead
        simp at hhead
      · rw [if_neg hmax] at htp2
        rw [hT, htp2]

/-- Witness for the amended claim C7 at a concrete signal whose first
extremum is a maximum. -/
theorem claim_C7_witness :
    findtp ([0, 2, 1, 3] : List ℚ) 0 none = some [0, 1, 2, 3] ∧
    rfcfilterT [0, 2, 1, 3] 0 1 = [0, 1, 2, 3] :=
  ⟨by with_unfolding_all decide,
   (claim_C7_amended [0, 2, 1, 3]
      (by norm_num [List.chain'_cons, List.chain'_singleton]) [0, 1, 2, 3]
      (by with_unfolding_all decide)).1 rfl⟩

/-- Claim C1, amended: the diagonal preserved by `mctp2rfc` is the
adjacent-level diagonal of the wafo min-to-max layout — the cells
`(i, N - 2 - i)` pairing each minimum with the maximum one level above —
not the main diagonal.  For every nonnegative mass assignment on that
diagonal of a `4 x 4` matrix the rainflow matrix equals the input, so all
mass is preserved in place (and in particular every row and column sum of
the output matches the corresponding input marginal exactly). -/
theorem claim_C1_amended (p q r : ℚ) (hp : 0 ≤ p) (hq : 0 ≤ q) (hr : 0 ≤ r) :
    mctp2rfc (adjDiagM p q r) none = adjDiagM p q r := by
  have hmax : rowSums (adjDiagM p q r) = [r, q, p, 0] := by simp [rowSums, adjDiagM]
  have hmin : colSums (adjDiagM p q r) 4 = [p, q, r, 0] := by
    simp [colSums, adjDiagM, show List.range 4 = [0, 1, 2, 3] from rfl]
  have hf0 : mset (mset (zeroMat 4 4) 2 0 ([r, q, p, 0].getD 2 0)) 0 2
      ([p, q, r, 0].getD 2 0) =
      [[0, 0, r, 0], [0, 0, 0, 0], [p, 0, 0, 0], [0, 0, 0, 0]] := by
    simp [mset, zeroMat]
  have hcell : mctpCell (adjDiagM p q r) (adjDiagM p q r) [r, q, p, 0] [p, q, r, 0] 4 2
      [[0, 0, r, 0], [0, 0, 0, 0], [p, 0, 0, 0], [0, 0, 0, 0]] 1 =
      [[0, 0, r, 0], [0, q, 0, 0], [p, 0, 0, 0], [0, 0, 0, 0]] := by
    rcases hq.eq_or_lt with hq0 | hq0
    · rw [← hq0]
      simp [mctpCell, adjDiagM, subMat, matSum, colSumAt, mcTol, rowSums, colSums, rot90,
        maxAbs, mset, mget, dotq, matVec, idMat, matMul, matSub, linsolve]
    · have hcond : max (min (q - 0) (q - 0)) 0 > mcTol * max q q := by
        rw [sub_zero, min_self, max_self, max_eq_left hq0.le]
        unfold mcTol
        linarith
      simp [mctpCell, adjDiagM, subMat, matSum, colSumAt, mcTol, rowSums, colSums, rot90,
        maxAbs, mset, mget, dotq, matVec, idMat, matMul, matSub, linsolve, hq0.ne, hcond]
      intro h
      linarith
  have hshell : mctpShell (adjDiagM p q r) (adjDiagM p q r) [r, q, p, 0] [p, q, r, 0] 4
      [[0, 0, r, 0], [0, 0, 0, 0], [p, 0, 0, 0], [0, 0, 0, 0]] 2 =
      [[0, 0, r, 0], [0, q, 0, 0], [p, 0, 0, 0], [0, 0, 0, 0]] := by
    unfold mctpShell
    rw [show List.range' 1 (2 - 1) = [1] from rfl]
    simp only [List.foldl_cons, List.foldl_nil]
    rw [hcell]
    simp [mset, sub_self, max_eq_right hp, min_eq_right hp]
  have hl1 : mctpLast [r, q, p, 0] [p, q, r, 0] 4
      [[0, 0, r, 0], [0, q, 0, 0], [p, 0, 0, 0], [0, 0, 0, 0]] 1 =
      [[0, 0, r, 0], [0, q, 0, 0], [p, 0, 0, 0], [0, 0, 0, 0]] := by
    simp [mctpLast, mset, max_eq_right hr, min_self]
  have hl2 : mctpLast [r, q, p, 0] [p, q, r, 0] 4
      [[0, 0, r, 0], [0, q, 0, 0], [p, 0, 0, 0], [0, 0, 0, 0]] 2 =
      [[0, 0, r, 0], [0, q, 0, 0], [p, 0, 0, 0], [0, 0, 0, 0]] := by
    simp [mctpLast, mset, sub_self]
  have hl3 : mctpLast [r, q, p, 0] [p, q, r, 0] 4
      [[0, 0, r, 0], [0, q, 0, 0], [p, 0, 0, 0], [0, 0, 0, 0]] 3 =
      [[0, 0, r, 0], [0, q, 0, 0], [p, 0, 0, 0], [0, 0, 0, 0]] := by
    simp [mctpLast, mset, sub_self]
  simp only [mctp2rfc, Option.getD_none]
  rw [show (adjDiagM p q r).length = 4 from rfl, hmax, hmin]
  rw [show (4 : ℕ) - 2 = 2 from rfl, hf0]
  rw [show List.range' 2 (4 - 3) = [2] from rfl,
    show List.range' 1 (4 - 1) = [1, 2, 3] from rfl]
  simp only [List.foldl_cons, List.foldl_nil]
  rw [hshell, hl1, hl2, hl3]
  simp [adjDiagM]

/-- Witness for the amended claim C1 at unit masses. -/
theorem claim_C1_witness :
    mctp2rfc (adjDiagM 1 1 1) none = adjDiagM 1 1 1 :=
  claim_C1_amended 1 1 1 (by norm_num) (by norm_num) (by norm_num)

end Wafo
